import Mathlib

/-!
Verification of kitty-doom's terminal-integration layer: a shallow embedding
of the base64 codec (scalar and NEON), the frame differencer, the key-held
bitmap, the release scheduler, the VT input parser and the renderer's chunked
frame transport, with theorems settling the specification claims.

Byte buffers are modelled as `List Nat` with every element `< 256`; machine
bytes and words are `Nat` with explicit `% 2 ^ w` wherever C truncation
matters.  Monotonic time is modelled as an absolute nanosecond count
(`struct timespec` normalisation collapses to plain addition on a flat
nanosecond scale).
-/

namespace KittyDoom

/-! ## Base64: portable scalar encoder (`base64_encode_scalar`, src/base64.h)

The C loop consumes full 3-byte groups while `i + 2 < input_len`, then the
2- and 1-byte remainder cases append `=` padding. -/

def base64_table : List Char :=
  "ABCDEFGHIJKLMNOPQRSTUVWXYZabcdefghijklmnopqrstuvwxyz0123456789+/".toList

/-- Index into `base64_table`; indices are always `< 64` at call sites. -/
def b64char (i : Nat) : Char := base64_table.getD i 'A'

def base64_encode_scalar : List Nat → List Char
  | b0 :: b1 :: b2 :: rest =>
    let triple := (b0 <<< 16) ||| (b1 <<< 8) ||| b2
    b64char ((triple >>> 18) &&& 0x3F) :: b64char ((triple >>> 12) &&& 0x3F) ::
      b64char ((triple >>> 6) &&& 0x3F) :: b64char (triple &&& 0x3F) ::
      base64_encode_scalar rest
  | [b0, b1] =>
    let triple := (b0 <<< 16) ||| (b1 <<< 8)
    [b64char ((triple >>> 18) &&& 0x3F), b64char ((triple >>> 12) &&& 0x3F),
      b64char ((triple >>> 6) &&& 0x3F), '=']
  | [b0] =>
    let triple := b0 <<< 16
    [b64char ((triple >>> 18) &&& 0x3F), b64char ((triple >>> 12) &&& 0x3F), '=', '=']
  | [] => []

/-! ## Base64: NEON encoder (`base64_encode_neon`, src/arch/neon-base64.h)

The main loop consumes 48-byte blocks.  `vld3q_u8` de-interleaves a block so
that lane `j` holds input bytes `3j, 3j+1, 3j+2`, and `vst4q_u8` interleaves
the four result vectors back, so the block computation is a per-triple
computation on the 16 lanes.  The remainder falls back to the scalar encoder. -/

def neon_source_table : List Char :=
  "AQgwBRhxCSiyDTjzEUk0FVl1GWm2HXn3IYo4JZp5Kaq6Lbr7Mcs8Ndt9Oeu+Pfv/".toList

/-- `vld4q_u8` de-interleaves the 64-entry table into `table.val[0..3]`, and
`vqtbl4q_u8 table i` reads `table.val[i / 16]` lane `i % 16`, i.e. entry
`4 * (i % 16) + i / 16` of the source array. -/
def neon_lookup (i : Nat) : Char := neon_source_table.getD (4 * (i % 16) + i / 16) 'A'

/-- `vsliq_n_u8(a, b, n) = (a & ~(0xff << n)) | (b << n)` on each byte lane,
with the shift of `b` truncated to 8 bits. -/
def vsliq_n_u8 (a b n : Nat) : Nat := (a &&& (2 ^ n - 1)) ||| ((b <<< n) % 256)

def base64_encode_neon_block : List Nat → List Char
  | b0 :: b1 :: b2 :: rest =>
    neon_lookup (b0 >>> 2) ::
      neon_lookup (vsliq_n_u8 (b1 >>> 4) b0 4 &&& 0x3F) ::
      neon_lookup (vsliq_n_u8 (b2 >>> 6) b1 2 &&& 0x3F) ::
      neon_lookup (b2 &&& 0x3F) ::
      base64_encode_neon_block rest
  | _ => []

def base64_encode_neon (l : List Nat) : List Char :=
  if h : 48 ≤ l.length then
    base64_encode_neon_block (l.take 48) ++ base64_encode_neon (l.drop 48)
  else
    base64_encode_scalar l
termination_by l.length
decreasing_by simp only [List.length_drop]; omega

/-- `base64_encode_auto` resolves the runtime CPU-feature dispatch; on the
ARM build it selects the NEON implementation (proven byte-identical to the
scalar one below). -/
def base64_encode_auto (l : List Nat) : List Char := base64_encode_neon l

/-! ### Equivalence of the NEON and scalar encoders -/

theorem shiftLeft_or_eq_add {k b : Nat} (a : Nat) (h : b < 2 ^ k) :
    (a <<< k) ||| b = a <<< k + b := by
  induction k generalizing a b with
  | zero =>
    have hb : b = 0 := by simpa using h
    subst hb; simp
  | succ k ih =>
    have hA2 : (a <<< (k + 1)) % 2 = 0 := by
      rw [Nat.shiftLeft_eq, Nat.pow_succ, ← Nat.mul_assoc]
      exact Nat.mul_mod_left _ 2
    have hmod : ((a <<< (k + 1)) ||| b) % 2 = b % 2 := by
      rcases Nat.mod_two_eq_zero_or_one b with hb | hb
      · rcases Nat.mod_two_eq_zero_or_one ((a <<< (k + 1)) ||| b) with hx | hx
        · omega
        · rcases Nat.or_mod_two_eq_one.mp hx with hc | hc <;> omega
      · rw [hb, Nat.or_mod_two_eq_one.mpr (Or.inr hb)]
    have hdiv : (a <<< (k + 1)) / 2 = a <<< k := by
      rw [Nat.shiftLeft_eq, Nat.shiftLeft_eq, Nat.pow_succ, ← Nat.mul_assoc]
      exact Nat.mul_div_cancel _ (by norm_num)
    have hb2 : b / 2 < 2 ^ k := by
      rw [Nat.div_lt_iff_lt_mul (by norm_num)]
      rw [Nat.pow_succ] at h
      exact h
    calc (a <<< (k + 1)) ||| b
        = 2 * (((a <<< (k + 1)) ||| b) / 2) + ((a <<< (k + 1)) ||| b) % 2 :=
          (Nat.div_add_mod _ 2).symm
      _ = 2 * ((a <<< (k + 1)) / 2 ||| b / 2) + b % 2 := by rw [Nat.or_div_two, hmod]
      _ = 2 * (a <<< k ||| b / 2) + b % 2 := by rw [hdiv]
      _ = 2 * (a <<< k + b / 2) + b % 2 := by rw [ih a hb2]
      _ = a <<< (k + 1) + b := by
          rw [Nat.shiftLeft_eq, Nat.shiftLeft_eq, Nat.mul_add, Nat.add_assoc,
            Nat.div_add_mod, Nat.pow_succ]
          ring

theorem triple_eq (b0 b1 b2 : Nat) (h1 : b1 < 256) (h2 : b2 < 256) :
    (b0 <<< 16) ||| (b1 <<< 8) ||| b2 = b0 * 65536 + b1 * 256 + b2 := by
  rw [Nat.or_assoc, shiftLeft_or_eq_add b1 (show b2 < 2 ^ 8 by norm_num; omega)]
  have hlt : b1 <<< 8 + b2 < 2 ^ 16 := by
    rw [Nat.shiftLeft_eq]; norm_num; omega
  rw [shiftLeft_or_eq_add b0 hlt, Nat.shiftLeft_eq, Nat.shiftLeft_eq]
  norm_num; omega

theorem and63 (x : Nat) : x &&& 63 = x % 64 := by
  have h := Nat.and_pow_two_sub_one_eq_mod x 6
  norm_num at h; exact h

theorem and15 (x : Nat) : x &&& 15 = x % 16 := by
  have h := Nat.and_pow_two_sub_one_eq_mod x 4
  norm_num at h; exact h

theorem and3 (x : Nat) : x &&& 3 = x % 4 := by
  have h := Nat.and_pow_two_sub_one_eq_mod x 2
  norm_num at h; exact h

theorem mul_sixteen_or (a r : Nat) (h : r < 16) : (a * 16) ||| r = a * 16 + r := by
  have := shiftLeft_or_eq_add (k := 4) (b := r) a (by norm_num; omega)
  rw [Nat.shiftLeft_eq] at this
  norm_num at this; exact this

theorem mul_four_or (a r : Nat) (h : r < 4) : (a * 4) ||| r = a * 4 + r := by
  have := shiftLeft_or_eq_add (k := 2) (b := r) a (by norm_num; omega)
  rw [Nat.shiftLeft_eq] at this
  norm_num at this; exact this

theorem neon_idx0 (b0 b1 b2 : Nat) (h0 : b0 < 256) (h1 : b1 < 256) (h2 : b2 < 256) :
    ((b0 * 65536 + b1 * 256 + b2) >>> 18) &&& 0x3F = b0 >>> 2 := by
  rw [Nat.shiftRight_eq_div_pow, Nat.shiftRight_eq_div_pow, and63]
  norm_num; omega

theorem neon_idx1 (b0 b1 b2 : Nat) (h0 : b0 < 256) (h1 : b1 < 256) (h2 : b2 < 256) :
    ((b0 * 65536 + b1 * 256 + b2) >>> 12) &&& 0x3F = vsliq_n_u8 (b1 >>> 4) b0 4 &&& 0x3F := by
  have e1 : (b0 <<< 4) % 256 = (b0 % 16) * 16 := by
    rw [Nat.shiftLeft_eq]; norm_num; omega
  have e2 : vsliq_n_u8 (b1 >>> 4) b0 4 = (b0 % 16) * 16 + b1 / 16 % 16 := by
    unfold vsliq_n_u8
    rw [e1, Nat.shiftRight_eq_div_pow]
    norm_num
    rw [and15, Nat.or_comm, mul_sixteen_or _ _ (by omega)]
  rw [e2, Nat.shiftRight_eq_div_pow, and63, and63]
  norm_num; omega

theorem neon_idx2 (b0 b1 b2 : Nat) (h0 : b0 < 256) (h1 : b1 < 256) (h2 : b2 < 256) :
    ((b0 * 65536 + b1 * 256 + b2) >>> 6) &&& 0x3F = vsliq_n_u8 (b2 >>> 6) b1 2 &&& 0x3F := by
  have e1 : (b1 <<< 2) % 256 = (b1 % 64) * 4 := by
    rw [Nat.shiftLeft_eq]; norm_num; omega
  have e2 : vsliq_n_u8 (b2 >>> 6) b1 2 = (b1 % 64) * 4 + b2 / 64 % 4 := by
    unfold vsliq_n_u8
    rw [e1, Nat.shiftRight_eq_div_pow]
    norm_num
    rw [and3, Nat.or_comm, mul_four_or _ _ (by omega)]
  rw [e2, Nat.shiftRight_eq_div_pow, and63, and63]
  norm_num; omega

theorem neon_idx3 (b0 b1 b2 : Nat) (h0 : b0 < 256) (h1 : b1 < 256) (h2 : b2 < 256) :
    (b0 * 65536 + b1 * 256 + b2) &&& 0x3F = b2 &&& 0x3F := by
  rw [and63, and63]; omega

theorem neon_lookup_eq_b64char : ∀ i, i < 64 → neon_lookup i = b64char i := by decide

theorem neon_block_eq_scalar :
    ∀ l : List Nat, (∀ b ∈ l, b < 256) → l.length % 3 = 0 →
      base64_encode_neon_block l = base64_encode_scalar l
  | [], _, _ => rfl
  | [_], _, h3 => by simp at h3
  | [_, _], _, h3 => by simp at h3
  | b0 :: b1 :: b2 :: rest, hb, h3 => by
    have h0 : b0 < 256 := hb b0 (by simp)
    have h1 : b1 < 256 := hb b1 (by simp)
    have h2 : b2 < 256 := hb b2 (by simp)
    have ih := neon_block_eq_scalar rest (fun b hbm => hb b (by simp [hbm]))
      (by simp at h3; omega)
    simp only [base64_encode_neon_block, base64_encode_scalar]
    rw [triple_eq b0 b1 b2 h1 h2]
    rw [neon_idx0 b0 b1 b2 h0 h1 h2, neon_idx1 b0 b1 b2 h0 h1 h2,
      neon_idx2 b0 b1 b2 h0 h1 h2, neon_idx3 b0 b1 b2 h0 h1 h2]
    rw [neon_lookup_eq_b64char _ (by rw [Nat.shiftRight_eq_div_pow]; omega),
      neon_lookup_eq_b64char _ (by rw [and63]; omega),
      neon_lookup_eq_b64char _ (by rw [and63]; omega),
      neon_lookup_eq_b64char _ (by rw [and63]; omega)]
    rw [ih]

theorem scalar_append_of_mod3 :
    ∀ l1 l2 : List Nat, l1.length % 3 = 0 →
      base64_encode_scalar (l1 ++ l2) = base64_encode_scalar l1 ++ base64_encode_scalar l2
  | [], _, _ => by simp [base64_encode_scalar]
  | [_], _, h3 => by simp at h3
  | [_, _], _, h3 => by simp at h3
  | b0 :: b1 :: b2 :: rest, l2, h3 => by
    have ih := scalar_append_of_mod3 rest l2 (by simp at h3; omega)
    simp only [List.cons_append, base64_encode_scalar, List.append_eq, ih]

theorem base64_encode_neon_eq_scalar (l : List Nat) (hb : ∀ b ∈ l, b < 256) :
    base64_encode_neon l = base64_encode_scalar l := by
  rw [base64_encode_neon]
  split
  · next h =>
    have htake : (l.take 48).length % 3 = 0 := by
      simp only [List.length_take]; omega
    rw [neon_block_eq_scalar (l.take 48) (fun b hbm => hb b (List.mem_of_mem_take hbm)) htake]
    rw [base64_encode_neon_eq_scalar (l.drop 48) (fun b hbm => hb b (List.mem_of_mem_drop hbm))]
    rw [← scalar_append_of_mod3 _ _ htake, List.take_append_drop]
  · rfl
termination_by l.length
decreasing_by simp only [List.length_drop]; omega

/-- C1: for every byte sequence the scalar encoder produces the RFC-4648
base64 text with `=` padding (checked on the RFC test vectors, in particular
`"foo" ↦ "Zm9v"` and `"f" ↦ "Zg=="`), and the NEON variant is byte-identical
to the scalar algorithm on every input, including the 1- and 2-byte
remainder cases. -/
theorem base64_encoder_correct :
    (∀ l : List Nat, (∀ b ∈ l, b < 256) →
      base64_encode_neon l = base64_encode_scalar l) ∧
    base64_encode_scalar [102, 111, 111] = "Zm9v".toList ∧
    base64_encode_scalar [102] = "Zg==".toList ∧
    base64_encode_scalar [] = [] ∧
    base64_encode_scalar [102, 111] = "Zm8=".toList ∧
    base64_encode_scalar [102, 111, 111, 98] = "Zm9vYg==".toList ∧
    base64_encode_scalar [102, 111, 111, 98, 97] = "Zm9vYmE=".toList ∧
    base64_encode_scalar [102, 111, 111, 98, 97, 114] = "Zm9vYmFy".toList :=
  ⟨base64_encode_neon_eq_scalar, by decide, by decide, by decide, by decide,
    by decide, by decide, by decide⟩

/-- Witness for `base64_encoder_correct` at a concrete input spanning a
1-byte remainder. -/
theorem base64_encoder_correct_witness :
    (∀ b ∈ [102, 111, 111, 98, 97, 114, 0, 255, 77, 3], b < 256) ∧
      base64_encode_neon [102, 111, 111, 98, 97, 114, 0, 255, 77, 3] =
        base64_encode_scalar [102, 111, 111, 98, 97, 114, 0, 255, 77, 3] :=
  ⟨by decide, base64_encoder_correct.1 _ (by decide)⟩

/-! ## Frame differencer (src/arch/neon-framediff.h and the scalar fallback
loop of render.c)

Frames are flat RGB24 byte lists (3 bytes per pixel).  `framediff_count_neon`
processes 48-byte (16-pixel) blocks with the NEON mask arithmetic and falls
back to the scalar 3-byte loop for the remainder; the scalar loop is the
`#else` branch of `renderer_render_frame`. -/

/-- `vceqq_u8` per lane: `0xFF` where the bytes are equal, `0x00` otherwise. -/
def vceqq_u8 (x y : Nat) : Nat := if x = y then 255 else 0

/-- One NEON block: per lane, the three channel masks are ANDed
(`same_pixels`), inverted (`vmvnq_u8`, i.e. XOR with `0xFF`), shifted right
by 7 and summed by the pairwise horizontal adds. -/
def framediff_count_neon_block : List Nat → List Nat → Nat
  | a0 :: a1 :: a2 :: as, b0 :: b1 :: b2 :: bs =>
    ((255 ^^^ (vceqq_u8 a0 b0 &&& vceqq_u8 a1 b1 &&& vceqq_u8 a2 b2)) >>> 7) +
      framediff_count_neon_block as bs
  | _, _ => 0

/-- The scalar remainder loop of `framediff_count_neon`, identical to the
scalar fallback of `renderer_render_frame`: one count per 3-byte pixel in
which any channel byte differs. -/
def framediff_count_scalar : List Nat → List Nat → Nat
  | a0 :: a1 :: a2 :: as, b0 :: b1 :: b2 :: bs =>
    (if a0 ≠ b0 ∨ a1 ≠ b1 ∨ a2 ≠ b2 then 1 else 0) + framediff_count_scalar as bs
  | _, _ => 0

def framediff_count_neon (f1 f2 : List Nat) : Nat :=
  if h : 48 ≤ f1.length then
    framediff_count_neon_block (f1.take 48) (f2.take 48) +
      framediff_count_neon (f1.drop 48) (f2.drop 48)
  else
    framediff_count_scalar f1 f2
termination_by f1.length
decreasing_by simp only [List.length_drop]; omega

def framediff_percentage_neon (f1 f2 : List Nat) (pixel_count : Nat) : Nat :=
  framediff_count_neon f1 f2 * 100 / pixel_count

def framediff_percentage_scalar (f1 f2 : List Nat) (pixel_count : Nat) : Nat :=
  framediff_count_scalar f1 f2 * 100 / pixel_count

/-- Spec-side pixel view: a flat byte list chunked into 3-byte pixels. -/
def pixelsOf : List Nat → List (Nat × Nat × Nat)
  | a :: b :: c :: rest => (a, b, c) :: pixelsOf rest
  | _ => []

/-- Spec-side count of pixels at which the two frames differ. -/
def pixel_diff_count (f1 f2 : List Nat) : Nat :=
  ((pixelsOf f1).zip (pixelsOf f2)).countP (fun p => decide (p.1 ≠ p.2))

theorem neon_lane_eq (a0 a1 a2 b0 b1 b2 : Nat) :
    (255 ^^^ (vceqq_u8 a0 b0 &&& vceqq_u8 a1 b1 &&& vceqq_u8 a2 b2)) >>> 7 =
      if a0 ≠ b0 ∨ a1 ≠ b1 ∨ a2 ≠ b2 then 1 else 0 := by
  rcases eq_or_ne a0 b0 with e0 | e0 <;> rcases eq_or_ne a1 b1 with e1 | e1 <;>
    rcases eq_or_ne a2 b2 with e2 | e2 <;> simp [vceqq_u8, e0, e1, e2]

theorem neon_block_eq_scalar_count : ∀ a b : List Nat,
    framediff_count_neon_block a b = framediff_count_scalar a b
  | [], _ => rfl
  | [_], _ => rfl
  | [_, _], _ => rfl
  | _ :: _ :: _ :: _, [] => rfl
  | _ :: _ :: _ :: _, [_] => rfl
  | _ :: _ :: _ :: _, [_, _] => rfl
  | a0 :: a1 :: a2 :: as, b0 :: b1 :: b2 :: bs => by
    simp only [framediff_count_neon_block, framediff_count_scalar,
      neon_block_eq_scalar_count as bs, neon_lane_eq]

theorem scalar_count_append :
    ∀ a1 b1 a2 b2 : List Nat, a1.length = b1.length → a1.length % 3 = 0 →
      framediff_count_scalar (a1 ++ a2) (b1 ++ b2) =
        framediff_count_scalar a1 b1 + framediff_count_scalar a2 b2
  | [], [], a2, b2, _, _ => by simp [framediff_count_scalar]
  | [], _ :: _, _, _, h, _ => by simp at h
  | _ :: _, [], _, _, h, _ => by simp at h
  | [_], _ :: _, _, _, _, h3 => by simp at h3
  | [_, _], _ :: _, _, _, _, h3 => by simp at h3
  | _ :: _ :: _ :: _, [_], _, _, h, _ => by simp at h
  | _ :: _ :: _ :: _, [_, _], _, _, h, _ => by simp at h
  | x0 :: x1 :: x2 :: xs, y0 :: y1 :: y2 :: ys, a2, b2, h, h3 => by
    have ih := scalar_count_append xs ys a2 b2 (by simp at h; omega) (by simp at h3; omega)
    simp only [List.cons_append, framediff_count_scalar, List.append_eq, ih]
    omega

theorem framediff_count_neon_eq_scalar (f1 f2 : List Nat) (hlen : f1.length = f2.length) :
    framediff_count_neon f1 f2 = framediff_count_scalar f1 f2 := by
  rw [framediff_count_neon]
  split
  · next h =>
    rw [neon_block_eq_scalar_count,
      framediff_count_neon_eq_scalar (f1.drop 48) (f2.drop 48)
        (by simp only [List.length_drop]; omega),
      ← scalar_count_append (f1.take 48) (f2.take 48) _ _
        (by simp only [List.length_take]; omega)
        (by simp only [List.length_take]; omega),
      List.take_append_drop, List.take_append_drop]
  · rfl
termination_by f1.length
decreasing_by simp only [List.length_drop]; omega

theorem scalar_count_eq_pixel_diff : ∀ f1 f2 : List Nat,
    framediff_count_scalar f1 f2 = pixel_diff_count f1 f2
  | [], f2 => by
    simp [framediff_count_scalar, pixel_diff_count, pixelsOf]
  | [_], f2 => by
    simp [framediff_count_scalar, pixel_diff_count, pixelsOf]
  | [_, _], f2 => by
    simp [framediff_count_scalar, pixel_diff_count, pixelsOf]
  | _ :: _ :: _ :: _, [] => by
    simp [framediff_count_scalar, pixel_diff_count, pixelsOf]
  | _ :: _ :: _ :: _, [_] => by
    simp [framediff_count_scalar, pixel_diff_count, pixelsOf]
  | _ :: _ :: _ :: _, [_, _] => by
    simp [framediff_count_scalar, pixel_diff_count, pixelsOf]
  | a0 :: a1 :: a2 :: as, b0 :: b1 :: b2 :: bs => by
    have ih := scalar_count_eq_pixel_diff as bs
    simp only [framediff_count_scalar, ih, pixel_diff_count, pixelsOf,
      List.zip_cons_cons, List.countP_cons]
    rcases eq_or_ne (a0, a1, a2) (b0, b1, b2) with hq | hq
    · simp only [Prod.mk.injEq] at hq
      simp [hq]
    · have hc : a0 ≠ b0 ∨ a1 ≠ b1 ∨ a2 ≠ b2 := by
        by_contra hcon
        push_neg at hcon
        exact hq (by simp [hcon.1, hcon.2.1, hcon.2.2])
      simp [hc, hq]
      omega

theorem framediff_count_scalar_self : ∀ f : List Nat, framediff_count_scalar f f = 0
  | [] => rfl
  | [_] => rfl
  | [_, _] => rfl
  | a0 :: a1 :: a2 :: as => by
    simp [framediff_count_scalar, framediff_count_scalar_self as]

theorem pixelsOf_length : ∀ l : List Nat, (pixelsOf l).length = l.length / 3
  | [] => rfl
  | [_] => by simp [pixelsOf]
  | [_, _] => by simp [pixelsOf]
  | _ :: _ :: _ :: rest => by
    simp [pixelsOf, pixelsOf_length rest]
    omega

theorem pixel_diff_count_le (f1 f2 : List Nat) (P : Nat)
    (h1 : f1.length = 3 * P) : pixel_diff_count f1 f2 ≤ P := by
  calc pixel_diff_count f1 f2 ≤ ((pixelsOf f1).zip (pixelsOf f2)).length :=
        List.countP_le_length _
    _ ≤ (pixelsOf f1).length := by rw [List.length_zip]; omega
    _ ≤ P := by rw [pixelsOf_length, h1]; omega

/-- C2: `diff_percentage` returns `floor (100 * k / P)` where `k` is the
number of pixels at which any of the three channel bytes differs; the result
lies in `[0, 100]`, is `0` on identical frames, and the NEON path agrees
with the scalar path on every pair of equally-sized inputs. -/
theorem framediff_percentage_correct :
    ∀ (f1 f2 : List Nat) (P : Nat), 0 < P →
      f1.length = 3 * P → f2.length = 3 * P →
      framediff_percentage_neon f1 f2 P = 100 * pixel_diff_count f1 f2 / P ∧
      framediff_percentage_neon f1 f2 P ≤ 100 ∧
      framediff_percentage_neon f1 f2 P = framediff_percentage_scalar f1 f2 P ∧
      framediff_percentage_neon f1 f1 P = 0 := by
  intro f1 f2 P hP h1 h2
  have heq : framediff_count_neon f1 f2 = framediff_count_scalar f1 f2 :=
    framediff_count_neon_eq_scalar f1 f2 (by omega)
  have hself : framediff_percentage_neon f1 f1 P = 0 := by
    unfold framediff_percentage_neon
    rw [framediff_count_neon_eq_scalar f1 f1 rfl, framediff_count_scalar_self]
    simp
  refine ⟨?_, ?_, ?_, hself⟩
  · unfold framediff_percentage_neon
    rw [heq, scalar_count_eq_pixel_diff, Nat.mul_comm]
  · unfold framediff_percentage_neon
    rw [heq, scalar_count_eq_pixel_diff]
    have hk : pixel_diff_count f1 f2 ≤ P := pixel_diff_count_le f1 f2 P h1
    calc pixel_diff_count f1 f2 * 100 / P ≤ P * 100 / P :=
          Nat.div_le_div_right (by omega)
      _ = 100 := by rw [Nat.mul_comm, Nat.mul_div_cancel _ hP]
  · unfold framediff_percentage_neon framediff_percentage_scalar
    rw [heq]

/-- Witness for `framediff_percentage_correct` on two 2-pixel frames
differing in exactly one pixel. -/
theorem framediff_percentage_correct_witness :
    0 < 2 ∧ ([0, 0, 0, 1, 1, 1] : List Nat).length = 3 * 2 ∧
      ([0, 0, 0, 9, 1, 1] : List Nat).length = 3 * 2 ∧
      (framediff_percentage_neon [0, 0, 0, 1, 1, 1] [0, 0, 0, 9, 1, 1] 2 =
        100 * pixel_diff_count [0, 0, 0, 1, 1, 1] [0, 0, 0, 9, 1, 1] / 2 ∧
      framediff_percentage_neon [0, 0, 0, 1, 1, 1] [0, 0, 0, 9, 1, 1] 2 ≤ 100 ∧
      framediff_percentage_neon [0, 0, 0, 1, 1, 1] [0, 0, 0, 9, 1, 1] 2 =
        framediff_percentage_scalar [0, 0, 0, 1, 1, 1] [0, 0, 0, 9, 1, 1] 2 ∧
      framediff_percentage_neon [0, 0, 0, 1, 1, 1] [0, 0, 0, 1, 1, 1] 2 = 0) :=
  ⟨by decide, by decide, by decide,
    framediff_percentage_correct [0, 0, 0, 1, 1, 1] [0, 0, 0, 9, 1, 1] 2
      (by decide) (by decide) (by decide)⟩

/-! ## Key-held bitmap (`held_keys_bitmap`, `mark_key_held`,
`mark_key_released`, `is_key_held` — src/input.c)

256 bits packed into 4 64-bit words; key codes are C `int`s, so they are
modelled as `Int` with the same out-of-range guards. -/

structure KeyBitmap where
  w0 : Nat
  w1 : Nat
  w2 : Nat
  w3 : Nat
deriving DecidableEq

def KeyBitmap.empty : KeyBitmap := ⟨0, 0, 0, 0⟩

def getWord (bm : KeyBitmap) : Nat → Nat
  | 0 => bm.w0
  | 1 => bm.w1
  | 2 => bm.w2
  | _ => bm.w3

def setWord (bm : KeyBitmap) : Nat → Nat → KeyBitmap
  | 0, v => { bm with w0 := v }
  | 1, v => { bm with w1 := v }
  | 2, v => { bm with w2 := v }
  | _, v => { bm with w3 := v }

def MAX_KEY_CODE : Int := 256

def mark_key_held (bm : KeyBitmap) (key : Int) : KeyBitmap :=
  if key < 0 ∨ MAX_KEY_CODE ≤ key then bm
  else
    let w := key.toNat / 64
    let b := key.toNat % 64
    setWord bm w (getWord bm w ||| (1 <<< b))

/-- `~(1ULL << bit)` on a 64-bit word is XOR with `2 ^ 64 - 1`. -/
def mark_key_released (bm : KeyBitmap) (key : Int) : KeyBitmap :=
  if key < 0 ∨ MAX_KEY_CODE ≤ key then bm
  else
    let w := key.toNat / 64
    let b := key.toNat % 64
    setWord bm w (getWord bm w &&& ((2 ^ 64 - 1) ^^^ (1 <<< b)))

def is_key_held (bm : KeyBitmap) (key : Int) : Bool :=
  if key < 0 ∨ MAX_KEY_CODE ≤ key then false
  else
    let w := key.toNat / 64
    let b := key.toNat % 64
    (getWord bm w &&& (1 <<< b)) != 0

theorem and_shift_ne_zero (x b : Nat) : ((x &&& (1 <<< b)) != 0) = x.testBit b := by
  rw [Nat.one_shiftLeft, Nat.and_two_pow]
  cases h : x.testBit b
  · simp
  · simpa using (Nat.two_pow_pos b).ne'

theorem getWord_setWord_self (bm : KeyBitmap) (w v : Nat) (h : w < 4) :
    getWord (setWord bm w v) w = v := by
  interval_cases w <;> rfl

theorem getWord_setWord_other (bm : KeyBitmap) (w w' v : Nat) (h : w < 4) (h' : w' < 4)
    (hne : w ≠ w') : getWord (setWord bm w v) w' = getWord bm w' := by
  interval_cases w <;> interval_cases w' <;> first | rfl | exact absurd rfl hne

theorem inRange_not_guard {k : Int} (h0 : 0 ≤ k) (h1 : k < 256) :
    ¬(k < 0 ∨ MAX_KEY_CODE ≤ k) := by
  unfold MAX_KEY_CODE; omega

theorem testBit_mask_self (x b : Nat) (hb : b < 64) :
    (x &&& ((2 ^ 64 - 1) ^^^ (1 <<< b))).testBit b = false := by
  rw [Nat.one_shiftLeft, Nat.testBit_land, Nat.testBit_xor,
    Nat.testBit_two_pow_self, Nat.testBit_two_pow_sub_one]
  simp [hb]

theorem testBit_mask_other (x b b' : Nat) (hb' : b' < 64) (hne : b ≠ b') :
    (x &&& ((2 ^ 64 - 1) ^^^ (1 <<< b))).testBit b' = x.testBit b' := by
  rw [Nat.one_shiftLeft, Nat.testBit_land, Nat.testBit_xor,
    Nat.testBit_two_pow_of_ne hne, Nat.testBit_two_pow_sub_one]
  simp [hb']

theorem held_mark_held_self (bm : KeyBitmap) (k : Int) (h0 : 0 ≤ k) (h1 : k < 256) :
    is_key_held (mark_key_held bm k) k = true := by
  have hg := inRange_not_guard h0 h1
  have hw : k.toNat / 64 < 4 := by omega
  simp only [is_key_held, mark_key_held, hg, if_false,
    getWord_setWord_self _ _ _ hw, and_shift_ne_zero]
  simp [Nat.testBit_lor, Nat.one_shiftLeft, Nat.testBit_two_pow_self]

theorem held_mark_released_self (bm : KeyBitmap) (k : Int) :
    is_key_held (mark_key_released bm k) k = false := by
  by_cases hg : k < 0 ∨ MAX_KEY_CODE ≤ k
  · simp [mark_key_released, is_key_held, hg]
  · have hw : k.toNat / 64 < 4 := by unfold MAX_KEY_CODE at hg; omega
    simp only [is_key_held, mark_key_released, hg, if_false,
      getWord_setWord_self _ _ _ hw, and_shift_ne_zero]
    exact testBit_mask_self _ _ (by omega)

theorem held_mark_held_other (bm : KeyBitmap) (k j : Int) (hj : j ≠ k) :
    is_key_held (mark_key_held bm k) j = is_key_held bm j := by
  by_cases hg : k < 0 ∨ MAX_KEY_CODE ≤ k
  · simp [mark_key_held, hg]
  · by_cases hjr : j < 0 ∨ MAX_KEY_CODE ≤ j
    · simp [is_key_held, hjr]
    · have hw : k.toNat / 64 < 4 := by unfold MAX_KEY_CODE at hg; omega
      have hjw : j.toNat / 64 < 4 := by unfold MAX_KEY_CODE at hjr; omega
      by_cases hww : k.toNat / 64 = j.toNat / 64
      · have hbb : k.toNat % 64 ≠ j.toNat % 64 := by
          unfold MAX_KEY_CODE at hg hjr; omega
        simp only [is_key_held, mark_key_held, hg, if_false, hjr, hww,
          getWord_setWord_self _ _ _ hjw, and_shift_ne_zero]
        simp [Nat.testBit_lor, Nat.one_shiftLeft, Nat.testBit_two_pow_of_ne hbb]
      · simp only [is_key_held, mark_key_held, hg, if_false, hjr,
          getWord_setWord_other _ _ _ _ hw hjw hww]

theorem held_mark_released_other (bm : KeyBitmap) (k j : Int) (hj : j ≠ k) :
    is_key_held (mark_key_released bm k) j = is_key_held bm j := by
  by_cases hg : k < 0 ∨ MAX_KEY_CODE ≤ k
  · simp [mark_key_released, hg]
  · by_cases hjr : j < 0 ∨ MAX_KEY_CODE ≤ j
    · simp [is_key_held, hjr]
    · have hw : k.toNat / 64 < 4 := by unfold MAX_KEY_CODE at hg; omega
      have hjw : j.toNat / 64 < 4 := by unfold MAX_KEY_CODE at hjr; omega
      by_cases hww : k.toNat / 64 = j.toNat / 64
      · have hbb : k.toNat % 64 ≠ j.toNat % 64 := by
          unfold MAX_KEY_CODE at hg hjr; omega
        simp only [is_key_held, mark_key_released, hg, if_false, hjr, hww,
          getWord_setWord_self _ _ _ hjw, and_shift_ne_zero]
        exact testBit_mask_other _ _ _ (by omega) hbb
      · simp only [is_key_held, mark_key_released, hg, if_false, hjr,
          getWord_setWord_other _ _ _ _ hw hjw hww]

theorem mark_out_of_range (bm : KeyBitmap) (k : Int) (hk : k < 0 ∨ 256 ≤ k) :
    mark_key_held bm k = bm ∧ mark_key_released bm k = bm ∧
      is_key_held bm k = false := by
  have hg : k < 0 ∨ MAX_KEY_CODE ≤ k := by unfold MAX_KEY_CODE; omega
  refine ⟨?_, ?_, ?_⟩ <;> simp [mark_key_held, mark_key_released, is_key_held, hg]

theorem held_empty (k : Int) : is_key_held KeyBitmap.empty k = false := by
  by_cases hg : k < 0 ∨ MAX_KEY_CODE ≤ k
  · simp [is_key_held, hg]
  · have hw : k.toNat / 64 < 4 := by unfold MAX_KEY_CODE at hg; omega
    have : getWord KeyBitmap.empty (k.toNat / 64) = 0 := by
      interval_cases h : k.toNat / 64 <;> rfl
    simp [is_key_held, hg, this]

/-- C8: for in-range keys `mark_key_held`/`mark_key_released` set and clear
exactly the key's own bit (`is_key_held` of every other key is unchanged);
out-of-range keys are no-ops and `is_key_held` returns `false` for them. -/
theorem key_bitmap_correct :
    (∀ (bm : KeyBitmap) (k : Int), 0 ≤ k → k < 256 →
      is_key_held (mark_key_held bm k) k = true ∧
      is_key_held (mark_key_released bm k) k = false ∧
      (∀ j : Int, j ≠ k →
        is_key_held (mark_key_held bm k) j = is_key_held bm j ∧
        is_key_held (mark_key_released bm k) j = is_key_held bm j)) ∧
    (∀ (bm : KeyBitmap) (k : Int), k < 0 ∨ 256 ≤ k →
      mark_key_held bm k = bm ∧ mark_key_released bm k = bm ∧
      is_key_held bm k = false) :=
  ⟨fun bm k h0 h1 =>
    ⟨held_mark_held_self bm k h0 h1, held_mark_released_self bm k,
      fun j hj => ⟨held_mark_held_other bm k j hj, held_mark_released_other bm k j hj⟩⟩,
    fun bm k hk => mark_out_of_range bm k hk⟩

/-- Witness for `key_bitmap_correct` at key 173 and other key 5. -/
theorem key_bitmap_correct_witness :
    ((0 : Int) ≤ 173 ∧ (173 : Int) < 256 ∧
      is_key_held (mark_key_held KeyBitmap.empty 173) 173 = true) ∧
    ((5 : Int) ≠ 173 ∧
      is_key_held (mark_key_held KeyBitmap.empty 173) 5 =
        is_key_held KeyBitmap.empty 5) ∧
    (((300 : Int) < 0 ∨ (256 : Int) ≤ 300) ∧
      mark_key_held KeyBitmap.empty 300 = KeyBitmap.empty) :=
  ⟨⟨by decide, by decide,
      (key_bitmap_correct.1 KeyBitmap.empty 173 (by decide) (by decide)).1⟩,
    ⟨by decide,
      ((key_bitmap_correct.1 KeyBitmap.empty 173 (by decide) (by decide)).2.2 5
        (by decide)).1⟩,
    ⟨by decide, (key_bitmap_correct.2 KeyBitmap.empty 300 (by decide)).1⟩⟩

/-! ## Release scheduler (`sched_key_release`, `process_pending_releases`,
src/input.c)

Deadlines are absolute nanosecond counts: `release_time = now + delay_ms *
1000000` (the `timespec` carry normalisation collapses on the flat scale,
and the due test `sec >` / `sec = ∧ nsec ≥` is the flat `≤`). -/

/-- Events delivered to the external engine (`doom_key_down` / `doom_key_up`)
or to the terminal-query state. -/
inductive Ev
  | down (k : Int)
  | up (k : Int)
  | da (parms : List Nat)
  | cellSize (h w : Nat)
  | cursorPos (r c : Nat)
deriving DecidableEq

def MAX_PENDING_RELEASES : Nat := 16

/-- The scheduler's shared state: the pending-release list (key, absolute
deadline) and the key-held bitmap. -/
structure KeyState where
  pending : List (Int × Nat)
  bitmap : KeyBitmap
deriving DecidableEq

/-- `input_create` zero-initialises: no pending releases, all-clear bitmap. -/
def KeyState.init : KeyState := ⟨[], KeyBitmap.empty⟩

def containsKey (l : List (Int × Nat)) (key : Int) : Bool :=
  l.any (fun p => p.1 == key)

/-- The scan loop of `sched_key_release`: overwrite the deadline of the
first entry for `key` and stop. -/
def updateFirst (l : List (Int × Nat)) (key : Int) (rt : Nat) : List (Int × Nat) :=
  match l with
  | [] => []
  | p :: rest => if p.1 == key then (key, rt) :: rest else p :: updateFirst rest key rt

def sched_key_release (ks : KeyState) (now : Nat) (key : Int) (delay_ms : Nat) :
    KeyState :=
  let release_time := now + delay_ms * 1000000
  if containsKey ks.pending key then
    { ks with pending := updateFirst ks.pending key release_time }
  else if ks.pending.length < MAX_PENDING_RELEASES then
    { pending := ks.pending ++ [(key, release_time)],
      bitmap := mark_key_held ks.bitmap key }
  else ks

/-- `process_pending_releases` iterates from the highest index down to 0 over
the mutating array; removal at index `i` only shifts indices above `i`
(already visited), so each original entry is visited exactly once, later
entries first.  The recursion below therefore processes the tail first and
the head entry last, for the list, the bitmap and the emitted events alike. -/
def processGo (now : Nat) : List (Int × Nat) → KeyBitmap →
    List (Int × Nat) × KeyBitmap × List Ev
  | [], bm => ([], bm, [])
  | e :: rest, bm =>
    let r := processGo now rest bm
    if e.2 ≤ now then (r.1, mark_key_released r.2.1 e.1, r.2.2 ++ [Ev.up e.1])
    else (e :: r.1, r.2.1, r.2.2)

def process_pending_releases (ks : KeyState) (now : Nat) : KeyState × List Ev :=
  let r := processGo now ks.pending ks.bitmap
  (⟨r.1, r.2.1⟩, r.2.2)

/-- At most one pending entry per key code. -/
def keysNodup (l : List (Int × Nat)) : Prop := (l.map Prod.fst).Nodup

/-! ### Characterisations of the scheduler loops -/

theorem processGo_pending (now : Nat) : ∀ (l : List (Int × Nat)) (bm : KeyBitmap),
    (processGo now l bm).1 = l.filter (fun e => decide (now < e.2))
  | [], _ => rfl
  | e :: rest, bm => by
    simp only [processGo, processGo_pending now rest bm, List.filter_cons]
    by_cases h : e.2 ≤ now
    · simp [h, Nat.not_lt.mpr h]
    · simp [h, Nat.lt_of_not_le h]

theorem processGo_bitmap (now : Nat) : ∀ (l : List (Int × Nat)) (bm : KeyBitmap),
    (processGo now l bm).2.1 =
      l.foldr (fun e acc => if e.2 ≤ now then mark_key_released acc e.1 else acc) bm
  | [], _ => rfl
  | e :: rest, bm => by
    simp only [processGo, processGo_bitmap now rest bm, List.foldr_cons]
    by_cases h : e.2 ≤ now <;> simp [h]

theorem processGo_events (now : Nat) : ∀ (l : List (Int × Nat)) (bm : KeyBitmap),
    (processGo now l bm).2.2 =
      ((l.filter (fun e => decide (e.2 ≤ now))).reverse).map (fun e => Ev.up e.1)
  | [], _ => rfl
  | e :: rest, bm => by
    simp only [processGo, processGo_events now rest bm, List.filter_cons]
    by_cases h : e.2 ≤ now <;> simp [h]

theorem processGo_held (now : Nat) : ∀ (l : List (Int × Nat)) (bm : KeyBitmap) (j : Int),
    is_key_held (processGo now l bm).2.1 j =
      (is_key_held bm j && !(l.any (fun e => decide (e.2 ≤ now) && (e.1 == j))))
  | [], bm, j => by simp [processGo]
  | e :: rest, bm, j => by
    simp only [processGo]
    by_cases h : e.2 ≤ now
    · simp only [h, if_true]
      by_cases hk : e.1 = j
      · subst hk
        simp [held_mark_released_self, h]
      · rw [held_mark_released_other _ _ _ (by omega)]
        rw [processGo_held now rest bm j]
        have he : (e.1 == j) = false := by simp [hk]
        simp [h, he]
    · simp only [h, if_false]
      rw [processGo_held now rest bm j]
      simp [h]

/-! ### Pending-list lemmas -/

theorem updateFirst_cons_pos (p : Int × Nat) (rest : List (Int × Nat)) (key : Int)
    (rt : Nat) (h : (p.1 == key) = true) :
    updateFirst (p :: rest) key rt = (key, rt) :: rest := by
  simp [updateFirst, h]

theorem updateFirst_cons_neg (p : Int × Nat) (rest : List (Int × Nat)) (key : Int)
    (rt : Nat) (h : (p.1 == key) = false) :
    updateFirst (p :: rest) key rt = p :: updateFirst rest key rt := by
  simp [updateFirst, h]

theorem updateFirst_keys (key : Int) (rt : Nat) : ∀ l : List (Int × Nat),
    (updateFirst l key rt).map Prod.fst = l.map Prod.fst
  | [] => rfl
  | p :: rest => by
    rcases h : (p.1 == key) with _ | _
    · rw [updateFirst_cons_neg p rest key rt h, List.map_cons, List.map_cons,
        updateFirst_keys key rt rest]
    · rw [updateFirst_cons_pos p rest key rt h, List.map_cons, List.map_cons,
        show p.1 = key from by simpa using h]

theorem containsKey_iff_mem (l : List (Int × Nat)) (k : Int) :
    containsKey l k = true ↔ k ∈ l.map Prod.fst := by
  simp only [containsKey, List.any_eq_true, List.mem_map, beq_iff_eq]

theorem containsKey_updateFirst (key : Int) (rt : Nat) (j : Int) :
    ∀ l : List (Int × Nat),
      containsKey (updateFirst l key rt) j = containsKey l j
  | [] => rfl
  | p :: rest => by
    rcases h : (p.1 == key) with _ | _
    · rw [updateFirst_cons_neg p rest key rt h]
      simp only [containsKey, List.any_cons]
      change (p.1 == j || containsKey (updateFirst rest key rt) j) =
        (p.1 == j || containsKey rest j)
      rw [containsKey_updateFirst key rt j rest]
    · rw [updateFirst_cons_pos p rest key rt h]
      simp only [containsKey, List.any_cons, show p.1 = key from by simpa using h]

theorem filterKey_nil_of_not_contains (k : Int) : ∀ l : List (Int × Nat),
    containsKey l k = false → l.filter (fun p => p.1 == k) = []
  | [], _ => rfl
  | p :: rest, h => by
    simp only [containsKey, List.any_cons, Bool.or_eq_false_iff] at h
    simp only [List.filter_cons, h.1, if_false]
    exact filterKey_nil_of_not_contains k rest (by simp [containsKey, h.2])

theorem filterKey_updateFirst (k : Int) (rt : Nat) : ∀ l : List (Int × Nat),
    keysNodup l → containsKey l k = true →
    (updateFirst l k rt).filter (fun p => p.1 == k) = [(k, rt)]
  | [], _, hc => by simp [containsKey] at hc
  | p :: rest, hn, hc => by
    rcases h : (p.1 == k) with _ | _
    · have hrest : containsKey rest k = true := by
        simp only [containsKey, List.any_cons, h, Bool.false_or] at hc
        exact hc
      have hn' : keysNodup rest := by
        unfold keysNodup at hn ⊢
        simp only [List.map_cons, List.nodup_cons] at hn
        exact hn.2
      rw [updateFirst_cons_neg p rest k rt h, List.filter_cons, h]
      simp only [Bool.false_eq_true, if_false]
      exact filterKey_updateFirst k rt rest hn' hrest
    · have hpk : p.1 = k := by simpa using h
      have hrest : containsKey rest k = false := by
        unfold keysNodup at hn
        simp only [List.map_cons, List.nodup_cons] at hn
        rcases hcon : containsKey rest k with _ | _
        · rfl
        · rw [containsKey_iff_mem] at hcon
          exact absurd (hpk ▸ hcon) hn.1
      rw [updateFirst_cons_pos p rest k rt h, List.filter_cons]
      simp only [beq_self_eq_true, if_true]
      rw [filterKey_nil_of_not_contains k rest hrest]

theorem keysNodup_updateFirst (l : List (Int × Nat)) (k : Int) (rt : Nat)
    (hn : keysNodup l) : keysNodup (updateFirst l k rt) := by
  unfold keysNodup at *
  rw [updateFirst_keys]
  exact hn

theorem keysNodup_append (l : List (Int × Nat)) (k : Int) (rt : Nat)
    (hn : keysNodup l) (hc : containsKey l k = false) :
    keysNodup (l ++ [(k, rt)]) := by
  unfold keysNodup at *
  rw [List.map_append, List.nodup_append]
  refine ⟨hn, List.nodup_singleton k, ?_⟩
  intro a ha hmem
  simp only [List.map_cons, List.map_nil, List.mem_singleton] at hmem
  subst hmem
  have hmemc : containsKey l a = true := (containsKey_iff_mem l a).mpr ha
  rw [hc] at hmemc
  exact Bool.false_ne_true hmemc

theorem sched_eq_update (ks : KeyState) (now : Nat) (k : Int) (d : Nat)
    (hc : containsKey ks.pending k = true) :
    sched_key_release ks now k d =
      { ks with pending := updateFirst ks.pending k (now + d * 1000000) } := by
  simp [sched_key_release, hc]

theorem sched_eq_insert (ks : KeyState) (now : Nat) (k : Int) (d : Nat)
    (hc : containsKey ks.pending k = false)
    (hlen : ks.pending.length < MAX_PENDING_RELEASES) :
    sched_key_release ks now k d =
      ⟨ks.pending ++ [(k, now + d * 1000000)], mark_key_held ks.bitmap k⟩ := by
  simp [sched_key_release, hc, hlen]

theorem sched_eq_full (ks : KeyState) (now : Nat) (k : Int) (d : Nat)
    (hc : containsKey ks.pending k = false)
    (hlen : ¬ks.pending.length < MAX_PENDING_RELEASES) :
    sched_key_release ks now k d = ks := by
  simp [sched_key_release, hc, hlen]

theorem count_up_events (ks : KeyState) (now : Nat) (k : Int) :
    ((process_pending_releases ks now).2).count (Ev.up k) =
      ((ks.pending.filter (fun p => p.1 == k)).filter
        (fun e => decide (e.2 ≤ now))).length := by
  show ((processGo now ks.pending ks.bitmap).2.2).count (Ev.up k) = _
  rw [processGo_events, List.count_eq_countP, List.countP_map, List.countP_reverse]
  rw [List.countP_eq_length_filter, List.filter_filter, List.filter_filter]
  congr 1
  apply List.filter_congr
  intro e _
  by_cases he : e.1 = k <;> by_cases hd : e.2 ≤ now <;>
    simp [he, hd, Function.comp]

theorem pending_after_process (ks : KeyState) (now : Nat) :
    (process_pending_releases ks now).1.pending =
      ks.pending.filter (fun e => decide (now < e.2)) := by
  show (processGo now ks.pending ks.bitmap).1 = _
  exact processGo_pending now ks.pending ks.bitmap

theorem held_after_process (ks : KeyState) (now : Nat) (j : Int) :
    is_key_held (process_pending_releases ks now).1.bitmap j =
      (is_key_held ks.bitmap j &&
        !(ks.pending.any (fun e => decide (e.2 ≤ now) && (e.1 == j)))) := by
  show is_key_held (processGo now ks.pending ks.bitmap).2.1 j = _
  exact processGo_held now ks.pending ks.bitmap j

theorem containsKey_eq_false_iff_filterKey_nil (l : List (Int × Nat)) (k : Int) :
    containsKey l k = false ↔ l.filter (fun p => p.1 == k) = [] := by
  constructor
  · exact filterKey_nil_of_not_contains k l
  · intro h
    rcases hc : containsKey l k with _ | _
    · rfl
    · rcases (containsKey_iff_mem l k).mp hc with hm
      rcases List.mem_map.mp hm with ⟨p, hp, hpk⟩
      have : p ∈ l.filter (fun p => p.1 == k) :=
        List.mem_filter.mpr ⟨hp, by simp [hpk]⟩
      rw [h] at this
      exact absurd this (List.not_mem_nil p)

/-- C4: a second `sched_key_release` for an already-scheduled key merges into
the single existing entry, leaving exactly one pending entry carrying the
deadline computed by the second call; exactly one key-up (with bitmap clear
and entry removal) is delivered once that deadline passes and none before;
and at capacity a schedule for a new key is silently dropped. -/
theorem sched_release_merge_and_capacity :
    (∀ (ks : KeyState) (now1 d1 now2 d2 now3 : Nat) (k : Int),
      keysNodup ks.pending →
      (ks.pending.length < MAX_PENDING_RELEASES ∨ containsKey ks.pending k = true) →
      (sched_key_release (sched_key_release ks now1 k d1) now2 k d2).pending.filter
          (fun p => p.1 == k) = [(k, now2 + d2 * 1000000)] ∧
      (now2 + d2 * 1000000 ≤ now3 →
        ((process_pending_releases
            (sched_key_release (sched_key_release ks now1 k d1) now2 k d2) now3).2).count
            (Ev.up k) = 1 ∧
        containsKey (process_pending_releases
            (sched_key_release (sched_key_release ks now1 k d1) now2 k d2) now3).1.pending
            k = false ∧
        is_key_held (process_pending_releases
            (sched_key_release (sched_key_release ks now1 k d1) now2 k d2) now3).1.bitmap
            k = false) ∧
      (now3 < now2 + d2 * 1000000 →
        ((process_pending_releases
            (sched_key_release (sched_key_release ks now1 k d1) now2 k d2) now3).2).count
            (Ev.up k) = 0 ∧
        (process_pending_releases
            (sched_key_release (sched_key_release ks now1 k d1) now2 k d2) now3).1.pending.filter
            (fun p => p.1 == k) = [(k, now2 + d2 * 1000000)])) ∧
    (∀ (ks : KeyState) (now : Nat) (k : Int) (d : Nat),
      ks.pending.length = MAX_PENDING_RELEASES → containsKey ks.pending k = false →
      sched_key_release ks now k d = ks) := by
  constructor
  · intro ks now1 d1 now2 d2 now3 k hn hcap
    set rt2 := now2 + d2 * 1000000 with hrt2
    -- after the first call the key is pending and the key list is still nodup
    have step1 : containsKey (sched_key_release ks now1 k d1).pending k = true ∧
        keysNodup (sched_key_release ks now1 k d1).pending := by
      rcases hc : containsKey ks.pending k with _ | _
      · rcases hcap with hlen | hcon
        · rw [sched_eq_insert ks now1 k d1 hc hlen]
          refine ⟨?_, keysNodup_append ks.pending k _ hn hc⟩
          simp [containsKey]
        · rw [hc] at hcon; exact absurd hcon (by simp)
      · rw [sched_eq_update ks now1 k d1 hc]
        exact ⟨by simpa [containsKey_updateFirst] using hc,
          keysNodup_updateFirst _ _ _ hn⟩
    have step2 : (sched_key_release (sched_key_release ks now1 k d1) now2 k d2).pending =
        updateFirst (sched_key_release ks now1 k d1).pending k rt2 := by
      rw [sched_eq_update _ now2 k d2 step1.1]
    have hfk : (sched_key_release (sched_key_release ks now1 k d1) now2 k d2).pending.filter
        (fun p => p.1 == k) = [(k, rt2)] := by
      rw [step2]
      exact filterKey_updateFirst k rt2 _ step1.2 step1.1
    refine ⟨hfk, ?_, ?_⟩
    · intro hdue
      refine ⟨?_, ?_, ?_⟩
      · rw [count_up_events, hfk]
        simp [hdue]
      · rw [containsKey_eq_false_iff_filterKey_nil, pending_after_process,
          List.filter_comm, hfk]
        simp [hdue, Nat.not_lt.mpr hdue]
      · rw [held_after_process]
        have hmem : (k, rt2) ∈ (sched_key_release (sched_key_release ks now1 k d1)
            now2 k d2).pending := by
          have : (k, rt2) ∈ (sched_key_release (sched_key_release ks now1 k d1)
              now2 k d2).pending.filter (fun p => p.1 == k) := by
            rw [hfk]; exact List.mem_singleton_self _
          exact List.mem_of_mem_filter this
        have hany : (sched_key_release (sched_key_release ks now1 k d1)
            now2 k d2).pending.any (fun e => decide (e.2 ≤ now3) && (e.1 == k)) = true := by
          rw [List.any_eq_true]
          exact ⟨(k, rt2), hmem, by simp [hdue]⟩
        rw [hany]
        simp
    · intro hearly
      refine ⟨?_, ?_⟩
      · rw [count_up_events, hfk]
        simp [Nat.not_le.mpr hearly]
      · rw [pending_after_process, List.filter_comm, hfk]
        simp [hearly]
  · intro ks now k d hlen hc
    exact sched_eq_full ks now k d hc (by omega)

/-- Witness for `sched_release_merge_and_capacity`: key 173 scheduled twice,
released once at its merged deadline; a 16-entry list drops key 99. -/
theorem sched_release_merge_and_capacity_witness :
    (keysNodup (KeyState.init.pending) ∧
      (KeyState.init.pending.length < MAX_PENDING_RELEASES ∨
        containsKey KeyState.init.pending 173 = true) ∧
      (sched_key_release (sched_key_release KeyState.init 0 173 50) 10000000 173 150).pending.filter
          (fun p => p.1 == 173) = [(173, 10000000 + 150 * 1000000)]) ∧
    ((⟨(List.range 16).map (fun i => ((i : Int), 5)), KeyBitmap.empty⟩ :
        KeyState).pending.length = MAX_PENDING_RELEASES ∧
      containsKey (⟨(List.range 16).map (fun i => ((i : Int), 5)), KeyBitmap.empty⟩ :
        KeyState).pending 99 = false ∧
      sched_key_release (⟨(List.range 16).map (fun i => ((i : Int), 5)), KeyBitmap.empty⟩ :
        KeyState) 0 99 50 =
        ⟨(List.range 16).map (fun i => ((i : Int), 5)), KeyBitmap.empty⟩) :=
  ⟨⟨by simp [keysNodup, KeyState.init], Or.inl (by decide),
      (sched_release_merge_and_capacity.1 KeyState.init 0 50 10000000 150 0 173
        (by simp [keysNodup, KeyState.init]) (Or.inl (by decide))).1⟩,
    ⟨by decide, by decide,
      sched_release_merge_and_capacity.2
        ⟨(List.range 16).map (fun i => ((i : Int), 5)), KeyBitmap.empty⟩ 0 99 50
        (by decide) (by decide)⟩⟩

/-! ### The joint scheduler/bitmap invariant -/

/-- At most one entry per key, bounded capacity, and — for every key code
that has a bit, i.e. `[0, 256)` — the bit is set iff the key is pending. -/
def SchedInv (ks : KeyState) : Prop :=
  keysNodup ks.pending ∧ ks.pending.length ≤ MAX_PENDING_RELEASES ∧
    ∀ k : Int, 0 ≤ k → k < 256 →
      (is_key_held ks.bitmap k = true ↔ containsKey ks.pending k = true)

theorem updateFirst_length (l : List (Int × Nat)) (k : Int) (rt : Nat) :
    (updateFirst l k rt).length = l.length := by
  have h := congrArg List.length (updateFirst_keys k rt l)
  simpa using h

theorem any_key_false (q : Int × Nat → Bool) (j : Int) : ∀ l : List (Int × Nat),
    containsKey l j = false → l.any (fun e => q e && (e.1 == j)) = false
  | [], _ => rfl
  | e :: rest, h => by
    simp only [containsKey, List.any_cons, Bool.or_eq_false_iff] at h
    simp only [List.any_cons, h.1, Bool.and_false, Bool.false_or]
    exact any_key_false q j rest (by simp [containsKey, h.2])

theorem contains_filter_notdue (now : Nat) (j : Int) : ∀ l : List (Int × Nat),
    keysNodup l →
    containsKey (l.filter (fun e => decide (now < e.2))) j =
      (containsKey l j && !(l.any (fun e => decide (e.2 ≤ now) && (e.1 == j))))
  | [], _ => rfl
  | e :: rest, hn => by
    have hn' : keysNodup rest := by
      unfold keysNodup at hn ⊢
      simp only [List.map_cons, List.nodup_cons] at hn
      exact hn.2
    have ih := contains_filter_notdue now j rest hn'
    simp only [containsKey] at ih ⊢
    rw [List.filter_cons]
    by_cases hd : now < e.2
    · rw [if_pos (by simpa using hd)]
      have hdec : decide (e.2 ≤ now) = false := by simp; omega
      simp only [List.any_cons, ih, hdec, Bool.false_and, Bool.false_or]
      rcases hke : (e.1 == j) with _ | _
      · simp
      · have hkj : e.1 = j := by simpa using hke
        have hrest : containsKey rest j = false := by
          unfold keysNodup at hn
          simp only [List.map_cons, List.nodup_cons] at hn
          rcases hcon : containsKey rest j with _ | _
          · rfl
          · rw [containsKey_iff_mem] at hcon
            exact absurd (hkj ▸ hcon) hn.1
        have hanyrest := any_key_false (fun e => decide (e.2 ≤ now)) j rest hrest
        simp only [containsKey] at hrest
        simp [hrest, hanyrest]
    · rw [if_neg (by simpa using hd)]
      have hdec : decide (e.2 ≤ now) = true := by simp; omega
      simp only [List.any_cons, ih, hdec, Bool.true_and]
      rcases hke : (e.1 == j) with _ | _
      · simp
      · have hkj : e.1 = j := by simpa using hke
        have hrest : containsKey rest j = false := by
          unfold keysNodup at hn
          simp only [List.map_cons, List.nodup_cons] at hn
          rcases hcon : containsKey rest j with _ | _
          · rfl
          · rw [containsKey_iff_mem] at hcon
            exact absurd (hkj ▸ hcon) hn.1
        have hanyrest := any_key_false (fun e => decide (e.2 ≤ now)) j rest hrest
        simp only [containsKey] at hrest
        simp [hrest, hanyrest]

theorem schedInv_init : SchedInv KeyState.init := by
  refine ⟨by simp [keysNodup, KeyState.init], by simp [KeyState.init, MAX_PENDING_RELEASES], ?_⟩
  intro k _ _
  simp [KeyState.init, held_empty, containsKey]

theorem schedInv_sched (ks : KeyState) (now : Nat) (k : Int) (d : Nat)
    (h : SchedInv ks) : SchedInv (sched_key_release ks now k d) := by
  obtain ⟨hn, hlen, hcorr⟩ := h
  rcases hc : containsKey ks.pending k with _ | _
  · by_cases hl : ks.pending.length < MAX_PENDING_RELEASES
    · rw [sched_eq_insert ks now k d hc hl]
      refine ⟨keysNodup_append _ _ _ hn hc, by simp; omega, ?_⟩
      intro j hj0 hj1
      by_cases hjk : j = k
      · subst hjk
        rw [held_mark_held_self _ _ hj0 hj1]
        simp [containsKey]
      · rw [held_mark_held_other _ _ _ hjk]
        have hkj : (k == j) = false := by
          rcases hb : (k == j) with _ | _
          · rfl
          · exact absurd ((by simpa using hb : k = j).symm) hjk
        rw [show containsKey (ks.pending ++ [(k, now + d * 1000000)]) j =
            containsKey ks.pending j from by
          simp [containsKey, List.any_append, hkj]]
        exact hcorr j hj0 hj1
    · rw [sched_eq_full ks now k d hc hl]
      exact ⟨hn, hlen, hcorr⟩
  · rw [sched_eq_update ks now k d hc]
    refine ⟨keysNodup_updateFirst _ _ _ hn, ?_, ?_⟩
    · simpa [updateFirst_length] using hlen
    · intro j hj0 hj1
      rw [show containsKey (updateFirst ks.pending k (now + d * 1000000)) j =
          containsKey ks.pending j from containsKey_updateFirst k _ j ks.pending]
      exact hcorr j hj0 hj1

theorem schedInv_process (ks : KeyState) (now : Nat) (h : SchedInv ks) :
    SchedInv (process_pending_releases ks now).1 := by
  obtain ⟨hn, hlen, hcorr⟩ := h
  refine ⟨?_, ?_, ?_⟩
  · rw [pending_after_process]
    unfold keysNodup at hn ⊢
    exact ((List.filter_sublist _).map Prod.fst).nodup hn
  · rw [pending_after_process]
    calc (ks.pending.filter _).length ≤ ks.pending.length := List.length_filter_le _ _
      _ ≤ MAX_PENDING_RELEASES := hlen
  · intro j hj0 hj1
    rw [pending_after_process, held_after_process,
      contains_filter_notdue now j ks.pending hn]
    rcases hh : is_key_held ks.bitmap j with _ | _
    · have : containsKey ks.pending j = false := by
        rcases hcj : containsKey ks.pending j with _ | _
        · rfl
        · exact absurd ((hcorr j hj0 hj1).mpr hcj) (by simp [hh])
      simp [this]
    · have hcj : containsKey ks.pending j = true := (hcorr j hj0 hj1).mp hh
      simp [hcj]

/-- C10: from the all-clear initial state, a key's bit (for the 256 key codes
that have one) is set iff that key has a pending entry; `sched_key_release`
sets the bit exactly when it inserts (not on a deadline merge, not on a
capacity drop) and `process_pending_releases` clears it exactly when it
removes the entry, so the correspondence (together with per-key uniqueness
and the capacity bound) is preserved by every operation. -/
theorem sched_bitmap_invariant :
    SchedInv KeyState.init ∧
    (∀ (ks : KeyState) (now : Nat) (k : Int) (d : Nat),
      SchedInv ks → SchedInv (sched_key_release ks now k d)) ∧
    (∀ (ks : KeyState) (now : Nat),
      SchedInv ks → SchedInv (process_pending_releases ks now).1) ∧
    (∀ (ks : KeyState) (now : Nat) (k : Int) (d : Nat),
      (containsKey ks.pending k = true →
        (sched_key_release ks now k d).bitmap = ks.bitmap ∧
        (sched_key_release ks now k d).pending =
          updateFirst ks.pending k (now + d * 1000000)) ∧
      (containsKey ks.pending k = false →
        ks.pending.length < MAX_PENDING_RELEASES →
        (sched_key_release ks now k d).bitmap = mark_key_held ks.bitmap k ∧
        (sched_key_release ks now k d).pending =
          ks.pending ++ [(k, now + d * 1000000)]) ∧
      (containsKey ks.pending k = false →
        ¬ks.pending.length < MAX_PENDING_RELEASES →
        sched_key_release ks now k d = ks)) :=
  ⟨schedInv_init, schedInv_sched, schedInv_process,
    fun ks now k d =>
      ⟨fun hc => by rw [sched_eq_update ks now k d hc]; exact ⟨rfl, rfl⟩,
        fun hc hl => by rw [sched_eq_insert ks now k d hc hl]; exact ⟨rfl, rfl⟩,
        fun hc hl => sched_eq_full ks now k d hc hl⟩⟩

/-- Witness for `sched_bitmap_invariant`: the invariant carried across a
concrete schedule and a concrete release pass. -/
theorem sched_bitmap_invariant_witness :
    SchedInv KeyState.init ∧
    SchedInv (sched_key_release KeyState.init 0 173 50) ∧
    SchedInv (process_pending_releases
      (sched_key_release KeyState.init 0 173 50) 60000000).1 ∧
    (containsKey KeyState.init.pending 173 = false ∧
      KeyState.init.pending.length < MAX_PENDING_RELEASES ∧
      (sched_key_release KeyState.init 0 173 50).bitmap =
        mark_key_held KeyState.init.bitmap 173) :=
  ⟨sched_bitmap_invariant.1,
    sched_bitmap_invariant.2.1 KeyState.init 0 173 50 sched_bitmap_invariant.1,
    sched_bitmap_invariant.2.2.1 (sched_key_release KeyState.init 0 173 50) 60000000
      (sched_bitmap_invariant.2.1 KeyState.init 0 173 50 sched_bitmap_invariant.1),
    by decide, by decide,
    ((sched_bitmap_invariant.2.2.2 KeyState.init 0 173 50).2.1 (by decide) (by decide)).1⟩

/-! ## VT input parser (`parse_char` and the key dispatchers, src/input.c)

Input bytes are the C `char` values fed to `parse_char` (the build targets
use plain unsigned byte values 0..255), modelled as `Int` like every key
code.  Each dispatch step takes the current monotonic time `now` (the
`clock_gettime` read inside `sched_key_release`). -/

/-- Modelled from the spec: engine-defined key code (PureDOOM's `doom_key_t`,
whose header is not among the repository sources). -/
def DOOM_KEY_ENTER : Int := 13

/-- Modelled from the spec: engine-defined key code (PureDOOM). -/
def DOOM_KEY_CTRL : Int := 157

/-- Modelled from the spec: engine-defined key code (PureDOOM). -/
def DOOM_KEY_LEFT_ARROW : Int := 172

/-- Modelled from the spec: engine-defined key code (PureDOOM). -/
def DOOM_KEY_UP_ARROW : Int := 173

/-- Modelled from the spec: engine-defined key code (PureDOOM). -/
def DOOM_KEY_RIGHT_ARROW : Int := 174

/-- Modelled from the spec: engine-defined key code (PureDOOM). -/
def DOOM_KEY_DOWN_ARROW : Int := 175

/-- Modelled from the spec: engine-defined key code (PureDOOM). -/
def DOOM_KEY_SHIFT : Int := 182

/-- Modelled from the spec: engine-defined key code (PureDOOM). -/
def DOOM_KEY_ALT : Int := 184

/-- Modelled from the spec: engine-defined key codes F1..F12 (PureDOOM). -/
def DOOM_KEY_F (n : Nat) : Int :=
  if n ≤ 10 then 186 + n else 204 + n

inductive PState
  | ground
  | esc
  | ss3
  | csi
deriving DecidableEq

def MAX_PARMS : Nat := 32

structure InputState where
  pstate : PState
  parms : List Nat
  parm : Nat
  parmPfx : Int
  ks : KeyState
  exitRequested : Bool
deriving DecidableEq

/-- `input_create`: GROUND state, zeroed parameters, empty pending list,
all-clear bitmap. -/
def input_init : InputState := ⟨.ground, [], 0, 0, KeyState.init, false⟩

/-- `for_each_modifier`: the modifier keys selected by the CSI parameter-2
encoding, in the order the callback is invoked (shift, alt, ctrl). -/
def modifier_keys (modifiers : Nat) : List Int :=
  if 2 ≤ modifiers then
    let mask := modifiers - 1
    (if mask &&& 1 ≠ 0 then [DOOM_KEY_SHIFT] else []) ++
      (if mask &&& 2 ≠ 0 then [DOOM_KEY_ALT] else []) ++
      (if mask &&& 4 ≠ 0 then [DOOM_KEY_CTRL] else [])
  else []

def sched_modifier_releases (ks : KeyState) (now : Nat) (modifiers : Nat)
    (delay_ms : Nat) : KeyState :=
  (modifier_keys modifiers).foldl (fun a m => sched_key_release a now m delay_ms) ks

/-- The key-code mapping of `ascii_key`: CR and LF map to Enter, and the
Space/F/I fire aliases map to Ctrl. -/
def ascii_doom_key (ch : Int) : Int :=
  let k := ch
  let k := if k = 13 then DOOM_KEY_ENTER else k
  let k := if k = 10 then DOOM_KEY_ENTER else k
  if ch = 32 ∨ ch = 102 ∨ ch = 70 ∨ ch = 105 ∨ ch = 73 then DOOM_KEY_CTRL else k

def ascii_key (s : InputState) (now : Nat) (ch : Int) : InputState × List Ev :=
  let k := ascii_doom_key ch
  let evs := if is_key_held s.ks.bitmap k then [] else [Ev.down k]
  ({ s with ks := sched_key_release s.ks now k 50 }, evs)

def ss3_doom_key (ch : Int) : Int :=
  if ch = 80 then DOOM_KEY_F 1
  else if ch = 81 then DOOM_KEY_F 2
  else if ch = 82 then DOOM_KEY_F 3
  else if ch = 83 then DOOM_KEY_F 4
  else 0

def ss3_key (s : InputState) (now : Nat) (ch : Int) : InputState × List Ev :=
  let k := ss3_doom_key ch
  if k ≠ 0 then
    let evs := if is_key_held s.ks.bitmap k then [] else [Ev.down k]
    ({ s with ks := sched_key_release s.ks now k 50 }, evs)
  else (s, [])

def csi_doom_key (ch : Int) (parm1 : Nat) : Int :=
  if ch = 65 then DOOM_KEY_UP_ARROW
  else if ch = 66 then DOOM_KEY_DOWN_ARROW
  else if ch = 67 then DOOM_KEY_RIGHT_ARROW
  else if ch = 68 then DOOM_KEY_LEFT_ARROW
  else if ch = 126 then
    if parm1 = 15 then DOOM_KEY_F 5
    else if parm1 = 17 then DOOM_KEY_F 6
    else if parm1 = 18 then DOOM_KEY_F 7
    else if parm1 = 19 then DOOM_KEY_F 8
    else if parm1 = 20 then DOOM_KEY_F 9
    else if parm1 = 21 then DOOM_KEY_F 10
    else if parm1 = 23 then DOOM_KEY_F 11
    else if parm1 = 24 then DOOM_KEY_F 12
    else 0
  else 0

/-- Arrow keys get 150 ms (bridging terminal auto-repeat), other keys 50 ms. -/
def csi_delay (k : Int) : Nat :=
  if k = DOOM_KEY_UP_ARROW ∨ k = DOOM_KEY_DOWN_ARROW ∨ k = DOOM_KEY_LEFT_ARROW ∨
      k = DOOM_KEY_RIGHT_ARROW then 150 else 50

def csi_key (s : InputState) (now : Nat) (ch : Int) (parm1 parm2 : Nat) :
    InputState × List Ev :=
  let k := csi_doom_key ch parm1
  if k ≠ 0 then
    let delay := csi_delay k
    let alreadyHeld := is_key_held s.ks.bitmap k
    let evs := if alreadyHeld then []
      else (modifier_keys parm2).map Ev.down ++ [Ev.down k]
    let ks1 := sched_key_release s.ks now k delay
    let ks2 := if alreadyHeld then ks1
      else sched_modifier_releases ks1 now parm2 delay
    ({ s with ks := ks2 }, evs)
  else (s, [])

def pushParm (parms : List Nat) (parm : Nat) : List Nat :=
  if parms.length < MAX_PARMS then parms ++ [parm] else parms

def parse_char (s : InputState) (now : Nat) (ch : Int) : InputState × List Ev :=
  if ch = 3 then ({ s with exitRequested := true }, [])
  else if ch = 27 then
    if s.pstate = .esc then
      let r := ascii_key s now 27
      ({ r.1 with pstate := .esc }, r.2)
    else ({ s with pstate := .esc }, [])
  else if s.pstate = .ground then ascii_key s now ch
  else if s.pstate = .esc then
    if ch = 79 then ({ s with pstate := .ss3 }, [])
    else if ch = 91 then
      ({ s with pstate := .csi, parm := 0, parms := [], parmPfx := 0 }, [])
    else
      let r1 := ascii_key s now 27
      let s2 := { r1.1 with pstate := PState.ground }
      if 32 ≤ ch ∧ ch < 127 then
        let r2 := ascii_key s2 now ch
        (r2.1, r1.2 ++ r2.2)
      else (s2, r1.2)
  else if s.pstate = .ss3 then
    let r := ss3_key s now ch
    ({ r.1 with pstate := .ground }, r.2)
  else
    if 48 ≤ ch ∧ ch ≤ 57 then
      ({ s with parm := s.parm * 10 + (ch - 48).toNat }, [])
    else if ch = 59 then ({ s with parms := pushParm s.parms s.parm, parm := 0 }, [])
    else if ch = 63 ∨ ch = 62 then ({ s with parmPfx := ch }, [])
    else
      let parms2 := pushParm s.parms s.parm
      if ch = 99 ∧ s.parmPfx = 63 then
        ({ s with parms := parms2, pstate := .ground }, [Ev.da parms2])
      else if ch = 116 then
        let evs := if 3 ≤ parms2.length ∧ parms2.getD 0 0 = 4 then
          [Ev.cellSize (parms2.getD 1 0) (parms2.getD 2 0)] else []
        ({ s with parms := parms2, pstate := .ground }, evs)
      else if ch = 82 then
        let evs := if 2 ≤ parms2.length then
          [Ev.cursorPos (parms2.getD 0 0) (parms2.getD 1 0)] else []
        ({ s with parms := parms2, pstate := .ground }, evs)
      else
        let r := csi_key { s with parms := parms2 } now ch
          (if 0 < parms2.length then parms2.getD 0 0 else 0)
          (if 1 < parms2.length then parms2.getD 1 0 else 0)
        ({ r.1 with pstate := .ground }, r.2)

/-- Feed a time-stamped byte sequence through `parse_char`, collecting the
delivered events in order. -/
def run (s : InputState) : List (Nat × Int) → InputState × List Ev
  | [] => (s, [])
  | (t, ch) :: rest =>
    let r1 := parse_char s t ch
    let r2 := run r1.1 rest
    (r2.1, r1.2 ++ r2.2)

theorem pushParm_length_pos (l : List Nat) (p : Nat) : 0 < (pushParm l p).length := by
  unfold pushParm MAX_PARMS
  split
  · simp
  · next h => omega

/-- C9: the parser is total (every dispatcher is a total function on its
state), and a byte terminating a CSI sequence that matches none of the
recognized dispatches (arrow letters, `~` with the listed codes, `c` with
the `?` prefix, `t` with first parameter 4, `R`) delivers no event at all
and returns the parser to GROUND, leaving the scheduler state untouched. -/
theorem parser_lenient_csi :
    ∀ (s : InputState) (now : Nat) (ch : Int),
      s.pstate = .csi →
      ch ≠ 3 → ch ≠ 27 →
      ¬(48 ≤ ch ∧ ch ≤ 57) → ch ≠ 59 → ch ≠ 63 → ch ≠ 62 →
      ch ≠ 65 → ch ≠ 66 → ch ≠ 67 → ch ≠ 68 →
      (ch = 126 → (pushParm s.parms s.parm).getD 0 0 ∉
        ([15, 17, 18, 19, 20, 21, 23, 24] : List Nat)) →
      ¬(ch = 99 ∧ s.parmPfx = 63) →
      ¬(ch = 116 ∧ 3 ≤ (pushParm s.parms s.parm).length ∧
        (pushParm s.parms s.parm).getD 0 0 = 4) →
      ¬(ch = 82 ∧ 2 ≤ (pushParm s.parms s.parm).length) →
      parse_char s now ch =
        ({ s with parms := pushParm s.parms s.parm, pstate := .ground }, []) := by
  intro s now ch hcsi h3 h27 hnum h59 h63 h62 h65 h66 h67 h68 h126 h99 h116 h82
  have hnotg : ¬s.pstate = .ground := by simp [hcsi]
  have hnote : ¬s.pstate = .esc := by simp [hcsi]
  have hnots : ¬s.pstate = .ss3 := by simp [hcsi]
  unfold parse_char
  rw [if_neg h3, if_neg h27, if_neg hnotg, if_neg hnote, if_neg hnots, if_neg hnum,
    if_neg h59, if_neg (not_or.mpr ⟨h63, h62⟩)]
  simp only [if_neg h99]
  by_cases ht : ch = 116
  · have hcond : ¬(3 ≤ (pushParm s.parms s.parm).length ∧
        (pushParm s.parms s.parm).getD 0 0 = 4) := fun hcon => h116 ⟨ht, hcon⟩
    simp only [if_pos ht, if_neg hcond]
  · simp only [if_neg ht]
    by_cases hR : ch = 82
    · have hcond : ¬(2 ≤ (pushParm s.parms s.parm).length) := fun hcon => h82 ⟨hR, hcon⟩
      simp only [if_pos hR, if_neg hcond]
    · simp only [if_neg hR]
      have hk0 : csi_doom_key ch
          (if 0 < (pushParm s.parms s.parm).length then
            (pushParm s.parms s.parm).getD 0 0 else 0) = 0 := by
        unfold csi_doom_key
        rw [if_neg h65, if_neg h66, if_neg h67, if_neg h68]
        by_cases h126' : ch = 126
        · rw [if_pos h126', if_pos (pushParm_length_pos s.parms s.parm)]
          have hmem := h126 h126'
          simp only [List.mem_cons, List.mem_singleton, not_or] at hmem
          rw [if_neg hmem.1, if_neg hmem.2.1, if_neg hmem.2.2.1, if_neg hmem.2.2.2.1,
            if_neg hmem.2.2.2.2.1, if_neg hmem.2.2.2.2.2.1,
            if_neg hmem.2.2.2.2.2.2.1, if_neg hmem.2.2.2.2.2.2.2.1]
        · rw [if_neg h126']
      simp only [csi_key]
      rw [hk0]
      simp

/-- Witness for `parser_lenient_csi`: an `x` terminator in CSI state. -/
theorem parser_lenient_csi_witness :
    ((⟨.csi, [], 7, 0, KeyState.init, false⟩ : InputState).pstate = .csi ∧
      (120 : Int) ≠ 3) ∧
    parse_char (⟨.csi, [], 7, 0, KeyState.init, false⟩ : InputState) 0 120 =
      ({ (⟨.csi, [], 7, 0, KeyState.init, false⟩ : InputState) with
          parms := pushParm [] 7, pstate := .ground }, []) :=
  ⟨⟨rfl, by decide⟩,
    parser_lenient_csi ⟨.csi, [], 7, 0, KeyState.init, false⟩ 0 120 rfl
      (by decide) (by decide) (by decide) (by decide) (by decide) (by decide)
      (by decide) (by decide) (by decide) (by decide) (by decide) (by decide)
      (by decide) (by decide)⟩

/-- C3 counterexample: after `ESC [ 1 ; 2 A` (shift-modified Up), SHIFT is
held; feeding `ESC [ 1 ; 2 B` (shift-modified Down) before any release then
delivers a second `doom_key_down(SHIFT)` even though SHIFT is already held —
a key-down that is not a not-held→held transition of that key. -/
theorem key_edge_counterexample :
    is_key_held (run input_init
        [(0, 27), (0, 91), (0, 49), (0, 59), (0, 50), (0, 65)]).1.ks.bitmap
      DOOM_KEY_SHIFT = true ∧
    (run (run input_init [(0, 27), (0, 91), (0, 49), (0, 59), (0, 50), (0, 65)]).1
        [(10000000, 27), (10000000, 91), (10000000, 49), (10000000, 59),
          (10000000, 50), (10000000, 66)]).2 =
      [Ev.down DOOM_KEY_SHIFT, Ev.down DOOM_KEY_DOWN_ARROW] := by
  constructor <;> decide

/-- C3 amended: for the key dispatched as the primary key of an input
(direct character, SS3, or CSI), a key-down is delivered only on the
not-held→held edge: an arrival while that key is already held delivers no
event, leaves the bitmap untouched and only replaces the key's pending
release deadline (modifier key-downs decomposed from CSI parameter 2 are
emitted whenever the primary key is newly pressed, without checking the
modifier's own held state).  In particular a second `ESC [ A` before the
first release yields zero additional key-downs and extends the deadline. -/
theorem key_repeat_suppression_amended :
    (∀ (s : InputState) (now : Nat) (ch : Int),
      is_key_held s.ks.bitmap (ascii_doom_key ch) = true →
      containsKey s.ks.pending (ascii_doom_key ch) = true →
      (ascii_key s now ch).2 = [] ∧
      (ascii_key s now ch).1.ks.pending =
        updateFirst s.ks.pending (ascii_doom_key ch) (now + 50 * 1000000) ∧
      (ascii_key s now ch).1.ks.bitmap = s.ks.bitmap) ∧
    (∀ (s : InputState) (now : Nat) (ch : Int),
      ss3_doom_key ch ≠ 0 →
      is_key_held s.ks.bitmap (ss3_doom_key ch) = true →
      containsKey s.ks.pending (ss3_doom_key ch) = true →
      (ss3_key s now ch).2 = [] ∧
      (ss3_key s now ch).1.ks.pending =
        updateFirst s.ks.pending (ss3_doom_key ch) (now + 50 * 1000000) ∧
      (ss3_key s now ch).1.ks.bitmap = s.ks.bitmap) ∧
    (∀ (s : InputState) (now : Nat) (ch : Int) (p1 p2 : Nat),
      csi_doom_key ch p1 ≠ 0 →
      is_key_held s.ks.bitmap (csi_doom_key ch p1) = true →
      containsKey s.ks.pending (csi_doom_key ch p1) = true →
      (csi_key s now ch p1 p2).2 = [] ∧
      (csi_key s now ch p1 p2).1.ks.pending =
        updateFirst s.ks.pending (csi_doom_key ch p1)
          (now + csi_delay (csi_doom_key ch p1) * 1000000) ∧
      (csi_key s now ch p1 p2).1.ks.bitmap = s.ks.bitmap) ∧
    ((run input_init [(0, 27), (0, 91), (0, 65), (10000000, 27), (10000000, 91),
        (10000000, 65)]).2 = [Ev.down DOOM_KEY_UP_ARROW] ∧
      (run input_init [(0, 27), (0, 91), (0, 65), (10000000, 27), (10000000, 91),
        (10000000, 65)]).1.ks.pending = [(DOOM_KEY_UP_ARROW, 160000000)]) := by
  refine ⟨?_, ?_, ?_, by decide, by decide⟩
  · intro s now ch hheld hc
    refine ⟨by simp [ascii_key, hheld], ?_, ?_⟩
    · simp [ascii_key, sched_eq_update s.ks now (ascii_doom_key ch) 50 hc]
    · simp [ascii_key, sched_eq_update s.ks now (ascii_doom_key ch) 50 hc]
  · intro s now ch hne hheld hc
    refine ⟨by simp [ss3_key, hne, hheld], ?_, ?_⟩
    · simp [ss3_key, hne, sched_eq_update s.ks now (ss3_doom_key ch) 50 hc]
    · simp [ss3_key, hne, sched_eq_update s.ks now (ss3_doom_key ch) 50 hc]
  · intro s now ch p1 p2 hne hheld hc
    refine ⟨by simp [csi_key, hne, hheld], ?_, ?_⟩
    · simp [csi_key, hne, hheld,
        sched_eq_update s.ks now (csi_doom_key ch p1) (csi_delay (csi_doom_key ch p1)) hc]
    · simp [csi_key, hne, hheld,
        sched_eq_update s.ks now (csi_doom_key ch p1) (csi_delay (csi_doom_key ch p1)) hc]

/-- Witness for `key_repeat_suppression_amended`: the fire key (`f`, mapped
to Ctrl) arriving while Ctrl is already held. -/
theorem key_repeat_suppression_amended_witness :
    (is_key_held ({ input_init with
        ks := sched_key_release KeyState.init 0 DOOM_KEY_CTRL 50 } :
          InputState).ks.bitmap (ascii_doom_key 102) = true ∧
      containsKey ({ input_init with
        ks := sched_key_release KeyState.init 0 DOOM_KEY_CTRL 50 } :
          InputState).ks.pending (ascii_doom_key 102) = true) ∧
    (ascii_key { input_init with
        ks := sched_key_release KeyState.init 0 DOOM_KEY_CTRL 50 } 10000000 102).2 = [] :=
  ⟨⟨by decide, by decide⟩,
    (key_repeat_suppression_amended.1
      { input_init with ks := sched_key_release KeyState.init 0 DOOM_KEY_CTRL 50 }
      10000000 102 (by decide) (by decide)).1⟩

/-- C7 counterexample: the modifier decomposition is guarded only by the
primary key's held state.  With SHIFT already held (scheduled for release),
a CSI `1;2B` dispatch on the not-held Down arrow emits `down SHIFT` again. -/
theorem csi_modifier_counterexample :
    is_key_held ({ input_init with
        ks := sched_key_release KeyState.init 0 DOOM_KEY_SHIFT 150 } :
          InputState).ks.bitmap DOOM_KEY_SHIFT = true ∧
    (csi_key { input_init with
        ks := sched_key_release KeyState.init 0 DOOM_KEY_SHIFT 150 }
      10000000 66 1 2).2 =
      [Ev.down DOOM_KEY_SHIFT, Ev.down DOOM_KEY_DOWN_ARROW] := by
  constructor <;> decide

/-- C7 amended: when a CSI sequence with modifier bits dispatches to a
recognized key that is not already held, the bits decompose into up to three
modifier key-downs (shift, alt, ctrl) emitted unconditionally — without
checking each modifier's own held state — followed by the primary key-down,
and a release with the same delay is scheduled for the primary key and then
for each decomposed modifier; when the primary key is already held nothing
is emitted and no modifier release is scheduled. -/
theorem csi_modifier_decomposition :
    (∀ (s : InputState) (now : Nat) (ch : Int) (p1 p2 : Nat),
      csi_doom_key ch p1 ≠ 0 →
      (is_key_held s.ks.bitmap (csi_doom_key ch p1) = false →
        (csi_key s now ch p1 p2).2 =
          (modifier_keys p2).map Ev.down ++ [Ev.down (csi_doom_key ch p1)] ∧
        (csi_key s now ch p1 p2).1.ks =
          sched_modifier_releases
            (sched_key_release s.ks now (csi_doom_key ch p1)
              (csi_delay (csi_doom_key ch p1)))
            now p2 (csi_delay (csi_doom_key ch p1))) ∧
      (is_key_held s.ks.bitmap (csi_doom_key ch p1) = true →
        (csi_key s now ch p1 p2).2 = [] ∧
        (csi_key s now ch p1 p2).1.ks =
          sched_key_release s.ks now (csi_doom_key ch p1)
            (csi_delay (csi_doom_key ch p1)))) ∧
    (csi_key input_init 0 65 1 2).1.ks.pending =
      [(DOOM_KEY_UP_ARROW, 150000000), (DOOM_KEY_SHIFT, 150000000)] ∧
    (csi_key input_init 0 65 1 2).2 =
      [Ev.down DOOM_KEY_SHIFT, Ev.down DOOM_KEY_UP_ARROW] := by
  refine ⟨?_, by decide, by decide⟩
  intro s now ch p1 p2 hne
  constructor
  · intro hheld
    constructor
    · simp [csi_key, hne, hheld]
    · simp [csi_key, hne, hheld]
  · intro hheld
    constructor
    · simp [csi_key, hne, hheld]
    · simp [csi_key, hne, hheld]

/-- Witness for `csi_modifier_decomposition`: shift-modified Up arrow from
the initial state. -/
theorem csi_modifier_decomposition_witness :
    (csi_doom_key 65 1 ≠ 0 ∧
      is_key_held input_init.ks.bitmap (csi_doom_key 65 1) = false) ∧
    (csi_key input_init 0 65 1 2).2 =
      (modifier_keys 2).map Ev.down ++ [Ev.down (csi_doom_key 65 1)] :=
  ⟨⟨by decide, by decide⟩,
    ((csi_modifier_decomposition.1 input_init 0 65 1 2 (by decide)).1 (by decide)).1⟩

/-! ## Renderer / protocol framer (`renderer_render_frame` of the
frame-differencing renderer, src/render.c)

The chunk loop walks the base64 payload in 4096-byte steps; `more_chunks =
(offset + 4096) < size`, the transferred size is 4096 while more data
follows and the remainder otherwise.  The first chunk's control data is one
of the two metadata-bearing forms (`a=T,i=..,f=24,s=..,v=..,q=2,c=..,r=..`
on frame 0, `a=f,r=1,i=..,f=24,x=0,y=0,s=..,v=..` afterwards); continuation
chunks print a form whose only field is the more-data flag (`\e_Gm=..;` on
frame 0, the constant-prefixed `\e_Ga=f,r=1,m=..;` afterwards).  The
trailing animate command and first-frame newline carry no payload and are
outside the chunk sequence. -/

def WIDTH : Nat := 320
def HEIGHT : Nat := 200
def FRAME_SKIP_THRESHOLD : Nat := 5
def CHUNK_SIZE : Nat := 4096

inductive ChunkHeader
  | createImage (id : Int) (w h cols rows : Nat) (more : Bool)
  | frameUpdate (id : Int) (w h : Nat) (more : Bool)
  | contPlain (more : Bool)
  | contFrame (more : Bool)
deriving DecidableEq

structure Chunk where
  header : ChunkHeader
  data : List Char
deriving DecidableEq

def ChunkHeader.more : ChunkHeader → Bool
  | .createImage _ _ _ _ _ m => m
  | .frameUpdate _ _ _ m => m
  | .contPlain m => m
  | .contFrame m => m

def ChunkHeader.carriesMetadata : ChunkHeader → Bool
  | .createImage _ _ _ _ _ _ => true
  | .frameUpdate _ _ _ _ => true
  | .contPlain _ => false
  | .contFrame _ => false

structure Renderer where
  screen_rows : Nat
  screen_cols : Nat
  kitty_id : Int
  frame_number : Nat
  prev_frame : List Nat
deriving DecidableEq

def chunk_header (r : Renderer) (isFirst : Bool) (more : Bool) : ChunkHeader :=
  if isFirst then
    if r.frame_number = 0 then
      ChunkHeader.createImage r.kitty_id WIDTH HEIGHT r.screen_cols r.screen_rows more
    else ChunkHeader.frameUpdate r.kitty_id WIDTH HEIGHT more
  else
    if r.frame_number = 0 then ChunkHeader.contPlain more
    else ChunkHeader.contFrame more

/-- The chunk emission loop: `more_chunks = offset + 4096 < size` becomes
`4096 < remaining` on the remaining suffix, `this_size` is `4096` while more
data follows and the remainder otherwise. -/
def chunk_loop (r : Renderer) (isFirst : Bool) (data : List Char) : List Chunk :=
  if h : data = [] then []
  else
    ⟨chunk_header r isFirst (decide (CHUNK_SIZE < data.length)),
        data.take (if CHUNK_SIZE < data.length then CHUNK_SIZE else data.length)⟩ ::
      chunk_loop r false
        (data.drop (if CHUNK_SIZE < data.length then CHUNK_SIZE else data.length))
termination_by data.length
decreasing_by
  have hp : 0 < data.length := List.length_pos.mpr (by assumption)
  simp only [List.length_drop, CHUNK_SIZE]
  split <;> omega

def renderer_render_frame (r : Renderer) (frame : List Nat) : Renderer × List Chunk :=
  if 0 < r.frame_number ∧
      framediff_percentage_neon r.prev_frame frame (WIDTH * HEIGHT) <
        FRAME_SKIP_THRESHOLD then
    (r, [])
  else
    ({ r with frame_number := r.frame_number + 1, prev_frame := frame },
      chunk_loop r true (base64_encode_auto frame))

theorem chunk_header_more (r : Renderer) (isFirst more : Bool) :
    (chunk_header r isFirst more).more = more := by
  unfold chunk_header
  split <;> split <;> rfl

theorem chunk_header_first_meta (r : Renderer) (more : Bool) :
    (chunk_header r true more).carriesMetadata = true := by
  unfold chunk_header
  rw [if_pos rfl]
  split <;> rfl

theorem chunk_header_cont (r : Renderer) (more : Bool) :
    chunk_header r false more = ChunkHeader.contPlain more ∨
      chunk_header r false more = ChunkHeader.contFrame more := by
  unfold chunk_header
  simp only [Bool.false_eq_true, if_false]
  split
  · exact Or.inl rfl
  · exact Or.inr rfl

theorem chunk_loop_ne_nil (r : Renderer) (isFirst : Bool) (data : List Char)
    (h : data ≠ []) : chunk_loop r isFirst data ≠ [] := by
  rw [chunk_loop, dif_neg h]
  exact List.cons_ne_nil _ _

theorem chunk_loop_nil (r : Renderer) (isFirst : Bool) : chunk_loop r isFirst [] = [] := by
  rw [chunk_loop]
  simp

theorem chunk_loop_join (r : Renderer) (data : List Char) (isFirst : Bool) :
    ((chunk_loop r isFirst data).map Chunk.data).flatten = data := by
  rw [chunk_loop]
  split
  · next h => simp [h]
  · next h =>
    simp only [List.map_cons, List.flatten_cons]
    rw [chunk_loop_join r (data.drop _) false]
    exact List.take_append_drop _ data
termination_by data.length
decreasing_by
  have hp : 0 < data.length := List.length_pos.mpr (by assumption)
  simp only [List.length_drop, CHUNK_SIZE]
  split <;> omega

theorem chunk_loop_cont_all (r : Renderer) (data : List Char) :
    ∀ c ∈ chunk_loop r false data,
      c.header = ChunkHeader.contPlain c.header.more ∨
        c.header = ChunkHeader.contFrame c.header.more := by
  rw [chunk_loop]
  split
  · next h => intro c hc; simp at hc
  · next h =>
    intro c hc
    rcases List.mem_cons.mp hc with hc0 | hcr
    · subst hc0
      rcases chunk_header_cont r (decide (CHUNK_SIZE < data.length)) with h1 | h1 <;>
        rw [h1] <;> simp [ChunkHeader.more]
    · exact chunk_loop_cont_all r (data.drop _) c hcr
termination_by data.length
decreasing_by
  have hp : 0 < data.length := List.length_pos.mpr (by assumption)
  simp only [List.length_drop, CHUNK_SIZE]
  split <;> omega

theorem chunk_loop_dropLast_all (r : Renderer) (data : List Char) (isFirst : Bool) :
    ∀ c ∈ (chunk_loop r isFirst data).dropLast,
      c.data.length = CHUNK_SIZE ∧ c.header.more = true := by
  rw [chunk_loop]
  split
  · next h => intro c hc; simp at hc
  · next h =>
    by_cases hm : CHUNK_SIZE < data.length
    · have hdrop : data.drop (if CHUNK_SIZE < data.length then CHUNK_SIZE
          else data.length) ≠ [] := by
        rw [if_pos hm]
        rw [← List.length_pos, List.length_drop]
        omega
      have hrec := chunk_loop_ne_nil r false _ hdrop
      intro c hc
      rw [List.dropLast_cons_of_ne_nil hrec] at hc
      rcases List.mem_cons.mp hc with hc0 | hcr
      · subst hc0
        refine ⟨?_, ?_⟩
        · simp [if_pos hm, List.length_take]
          omega
        · rw [chunk_header_more]
          simp [hm]
      · exact chunk_loop_dropLast_all r _ false c hcr
    · have hdrop : data.drop (if CHUNK_SIZE < data.length then CHUNK_SIZE
          else data.length) = [] := by
        rw [if_neg hm, List.drop_length]
      intro c hc
      rw [hdrop, chunk_loop_nil] at hc
      simp at hc
termination_by data.length
decreasing_by
  have hp : 0 < data.length := List.length_pos.mpr (by assumption)
  simp only [List.length_drop, CHUNK_SIZE]
  split <;> omega

theorem chunk_loop_last (r : Renderer) (data : List Char) (isFirst : Bool) (c : Chunk) :
    (chunk_loop r isFirst data).getLast? = some c →
      c.header.more = false ∧ 1 ≤ c.data.length ∧ c.data.length ≤ CHUNK_SIZE := by
  rw [chunk_loop]
  split
  · next h => intro hc; simp at hc
  · next h =>
    by_cases hm : CHUNK_SIZE < data.length
    · have hdrop : data.drop (if CHUNK_SIZE < data.length then CHUNK_SIZE
          else data.length) ≠ [] := by
        rw [if_pos hm]
        rw [← List.length_pos, List.length_drop]
        omega
      have hrec := chunk_loop_ne_nil r false _ hdrop
      obtain ⟨x, xs, hxx⟩ := List.exists_cons_of_ne_nil hrec
      intro hc
      rw [hxx, List.getLast?_cons_cons] at hc
      exact chunk_loop_last r _ false c (by rw [hxx]; exact hc)
    · have hdrop : data.drop (if CHUNK_SIZE < data.length then CHUNK_SIZE
          else data.length) = [] := by
        rw [if_neg hm, List.drop_length]
      rw [hdrop, chunk_loop_nil]
      intro hc
      simp only [List.getLast?_singleton, Option.some.injEq] at hc
      subst hc
      refine ⟨?_, ?_, ?_⟩
      · rw [chunk_header_more]
        simp [hm]
      · simp only [if_neg hm, List.length_take]
        have := List.length_pos.mpr h
        omega
      · simp only [if_neg hm, List.length_take]
        omega
termination_by data.length
decreasing_by
  have hp : 0 < data.length := List.length_pos.mpr (by assumption)
  simp only [List.length_drop, CHUNK_SIZE]
  split <;> omega

theorem chunk_loop_head (r : Renderer) (data : List Char) (isFirst : Bool) (c : Chunk) :
    (chunk_loop r isFirst data).head? = some c →
      c.header = chunk_header r isFirst (decide (CHUNK_SIZE < data.length)) := by
  rw [chunk_loop]
  split
  · next h => intro hc; simp at hc
  · next h =>
    intro hc
    simp only [List.head?_cons, Option.some.injEq] at hc
    subst hc
    rfl

theorem chunk_loop_tail_cont (r : Renderer) (data : List Char) (isFirst : Bool) :
    ∀ c ∈ (chunk_loop r isFirst data).tail,
      c.header = ChunkHeader.contPlain c.header.more ∨
        c.header = ChunkHeader.contFrame c.header.more := by
  rw [chunk_loop]
  split
  · next h => intro c hc; simp at hc
  · next h =>
    intro c hc
    rw [List.tail_cons] at hc
    exact chunk_loop_cont_all r _ c hc

/-- C5: every transmitted frame's encoded payload is emitted as chunks of
exactly 4096 encoded bytes except possibly the last; every chunk except the
last carries the more-data flag set and the last carries it clear; the first
chunk carries the image metadata and every continuation chunk's control data
carries only the more-data flag; chunk payloads concatenate back to the full
encoded payload. -/
theorem renderer_chunking :
    ∀ (r : Renderer) (frame : List Nat),
      (renderer_render_frame r frame).2 ≠ [] →
      (((renderer_render_frame r frame).2.map Chunk.data).flatten =
          base64_encode_auto frame ∧
        (∀ c ∈ (renderer_render_frame r frame).2.dropLast,
          c.data.length = CHUNK_SIZE ∧ c.header.more = true) ∧
        (∀ c, (renderer_render_frame r frame).2.getLast? = some c →
          c.header.more = false ∧ 1 ≤ c.data.length ∧ c.data.length ≤ CHUNK_SIZE) ∧
        (∀ c, (renderer_render_frame r frame).2.head? = some c →
          c.header.carriesMetadata = true) ∧
        (∀ c ∈ (renderer_render_frame r frame).2.tail,
          c.header = ChunkHeader.contPlain c.header.more ∨
            c.header = ChunkHeader.contFrame c.header.more)) := by
  intro r frame hne
  by_cases hskip : 0 < r.frame_number ∧
      framediff_percentage_neon r.prev_frame frame (WIDTH * HEIGHT) <
        FRAME_SKIP_THRESHOLD
  · exact absurd (by simp [renderer_render_frame, hskip]) hne
  · have hch : (renderer_render_frame r frame).2 =
        chunk_loop r true (base64_encode_auto frame) := by
      simp [renderer_render_frame, hskip]
    rw [hch]
    refine ⟨chunk_loop_join r _ true, chunk_loop_dropLast_all r _ true,
      fun c hc => chunk_loop_last r _ true c hc, ?_,
      chunk_loop_tail_cont r _ true⟩
    intro c hc
    rw [chunk_loop_head r _ true c hc]
    exact chunk_header_first_meta r _

/-- Witness for `renderer_chunking` on a small frame from the initial
renderer session. -/
theorem renderer_chunking_witness :
    (renderer_render_frame ⟨40, 100, 7, 0, []⟩ [102, 111, 111]).2 ≠ [] ∧
    ((renderer_render_frame ⟨40, 100, 7, 0, []⟩ [102, 111, 111]).2.map
        Chunk.data).flatten = base64_encode_auto [102, 111, 111] := by
  have hne : (renderer_render_frame ⟨40, 100, 7, 0, []⟩ [102, 111, 111]).2 ≠ [] := by
    have hpay : base64_encode_auto [102, 111, 111] ≠ [] := by
      unfold base64_encode_auto
      rw [base64_encode_neon, dif_neg (by decide)]
      decide
    simp only [renderer_render_frame]
    rw [if_neg (by simp)]
    exact chunk_loop_ne_nil _ _ _ hpay
  exact ⟨hne, (renderer_chunking ⟨40, 100, 7, 0, []⟩ [102, 111, 111] hne).1⟩

/-- C6: a frame after the first whose diff percentage against the previous
frame is below the skip threshold is not transmitted and leaves the renderer
state unchanged; every transmitted frame leaves the previous-frame buffer
equal to the just-sent frame and increments the frame counter by one. -/
theorem renderer_frame_gate :
    ∀ (r : Renderer) (frame : List Nat),
      (0 < r.frame_number →
        framediff_percentage_neon r.prev_frame frame (WIDTH * HEIGHT) <
          FRAME_SKIP_THRESHOLD →
        renderer_render_frame r frame = (r, [])) ∧
      (¬(0 < r.frame_number ∧
          framediff_percentage_neon r.prev_frame frame (WIDTH * HEIGHT) <
            FRAME_SKIP_THRESHOLD) →
        (renderer_render_frame r frame).1 =
          { r with frame_number := r.frame_number + 1, prev_frame := frame } ∧
        (renderer_render_frame r frame).2 =
          chunk_loop r true (base64_encode_auto frame)) := by
  intro r frame
  constructor
  · intro h1 h2
    simp [renderer_render_frame, h1, h2]
  · intro hskip
    constructor <;> simp [renderer_render_frame, hskip]

/-- Witness for `renderer_frame_gate`: an unchanged frame after the first is
skipped; frame 0 is always transmitted. -/
theorem renderer_frame_gate_witness :
    (0 < (1 : Nat) ∧
      framediff_percentage_neon [0, 0, 0] [0, 0, 0] (WIDTH * HEIGHT) <
        FRAME_SKIP_THRESHOLD ∧
      renderer_render_frame ⟨40, 100, 7, 1, [0, 0, 0]⟩ [0, 0, 0] =
        (⟨40, 100, 7, 1, [0, 0, 0]⟩, [])) ∧
    (¬(0 < (⟨40, 100, 7, 0, []⟩ : Renderer).frame_number ∧
        framediff_percentage_neon [] [9, 9, 9] (WIDTH * HEIGHT) <
          FRAME_SKIP_THRESHOLD) ∧
      (renderer_render_frame ⟨40, 100, 7, 0, []⟩ [9, 9, 9]).1 =
        ⟨40, 100, 7, 1, [9, 9, 9]⟩) := by
  have hpct : framediff_percentage_neon [0, 0, 0] [0, 0, 0] (WIDTH * HEIGHT) = 0 := by
    unfold framediff_percentage_neon
    rw [framediff_count_neon, dif_neg (by decide)]
    decide
  refine ⟨⟨by decide, by rw [hpct]; decide, ?_⟩, ⟨by decide, ?_⟩⟩
  · exact (renderer_frame_gate ⟨40, 100, 7, 1, [0, 0, 0]⟩ [0, 0, 0]).1
      (by decide) (by rw [show (⟨40, 100, 7, 1, [0, 0, 0]⟩ : Renderer).prev_frame =
        [0, 0, 0] from rfl, hpct]; decide)
  · exact ((renderer_frame_gate ⟨40, 100, 7, 0, []⟩ [9, 9, 9]).2 (by decide)).1

end KittyDoom
